import Mathlib

/-!
# protoc-gen-grpc-funcs

A shallow embedding of `main.go`: the name resolver (`getGoPackage`,
`goPackageOption`, `goPackageName`, `goFileName`, `baseName`), the request
parser (`parseRequest`), the method helpers used by the template
(`TrimmedInput`, `TrimmedOutput`, `StreamName`), the template itself and
`generateResponse`.

Go strings are modelled as lists of characters.  Every byte the program
searches for (`/`, `;`, `.`) is ASCII, so a search over the characters of
a UTF-8 string finds the same places as Go's search over its bytes.

A call of `log.Fatal`/`log.Fatalf` and a run-time panic end the process
without any output; both are modelled as `Except.error`.
-/

namespace GrpcFuncs

/-- Go strings. -/
abbrev Str := List Char

/-! ## Functions of the Go standard library used by the program -/

/-- Go `strings.IndexByte(s, c)`: the index of the first `c` in `s`;
`none` stands for Go's `-1`. -/
def indexByte : Str → Char → Option Nat
  | [], _ => none
  | x :: xs, c => if x = c then some 0 else (indexByte xs c).map (· + 1)

/-- Go `strings.LastIndex(s, sep)` for a one-byte separator: the index of
the last `c` in `s`; `none` stands for Go's `-1`. -/
def lastIndexByte : Str → Char → Option Nat
  | [], _ => none
  | x :: xs, c =>
    match lastIndexByte xs c with
    | some i => some (i + 1)
    | none => if x = c then some 0 else none

/-- Go `strings.Contains(s, sep)` for a one-byte separator, which is
`Index(s, sep) >= 0`. -/
def stringsContains (s : Str) (c : Char) : Bool := (indexByte s c).isSome

/-- Go `strings.Split(s, sep)` for a one-byte separator: the pieces of `s`
between the separators (one more piece than there are separators). -/
def stringsSplit : Str → Char → List Str
  | [], _ => [[]]
  | x :: xs, c =>
    if x = c then [] :: stringsSplit xs c
    else
      match stringsSplit xs c with
      | [] => [[x]]
      | p :: ps => (x :: p) :: ps

/-- Go `strings.HasPrefix`. -/
def stringsHasPrefix (s pre : Str) : Bool := s.take pre.length == pre

/-- Go `strings.TrimPrefix(s, pre)`: `s` without the leading `pre`, or `s`
itself when it does not start with `pre`. -/
def stringsTrimPrefix (s pre : Str) : Str :=
  if stringsHasPrefix s pre then s.drop pre.length else s

/-- The loop of Go `path.Ext`, run over the reversed path: `acc` holds the
bytes already passed, in order. -/
def pathExtLoop : Str → Str → Str
  | [], _ => []
  | c :: rest, acc =>
    if c = '/' then []
    else if c = '.' then '.' :: acc
    else pathExtLoop rest (c :: acc)

/-- Go `path.Ext(p)`: the suffix of `p` that starts at the last dot of its
last slash-separated element, or the empty string when there is no dot. -/
def pathExt (p : Str) : Str := pathExtLoop p.reverse []

/-- Go `path.Split(p)`: `(p[:i+1], p[i+1:])` where `i` is the index of the
last slash (`-1` when there is none). -/
def pathSplit (p : Str) : Str × Str :=
  match lastIndexByte p '/' with
  | none => ([], p)
  | some i => (p.take (i + 1), p.drop (i + 1))

/-- The backtracking of Go `path.Clean` at a `..` element, on the reversed
output buffer: the last byte is dropped, and further bytes are dropped while
more than `dotdot` bytes remain and the byte just dropped is not a slash. -/
def cleanBacktrack : Str → Nat → Str
  | [], _ => []
  | c :: rest, dotdot =>
    if dotdot < rest.length ∧ c ≠ '/' then cleanBacktrack rest dotdot else rest

/-- The main loop of Go `path.Clean`.  `rest` is the part of the path still
to be read (`path[r:]`), `out` the bytes written so far (so `out.w` is
`out.length`) and `dotdot` the index where `..` must stop.  Every turn reads
at least one byte, so `fuel = len(path)` turns are enough. -/
def cleanLoop (rooted : Bool) : Nat → Str → Str → Nat → Str
  | 0, _, out, _ => out
  | _ + 1, [], out, _ => out
  | fuel + 1, c :: t, out, dotdot =>
    if c = '/' then
      -- empty path element
      cleanLoop rooted fuel t out dotdot
    else if c = '.' ∧ (t = [] ∨ t.head? = some '/') then
      -- "." element
      cleanLoop rooted fuel t out dotdot
    else if c = '.' ∧ t.head? = some '.' ∧
        (t.drop 1 = [] ∨ (t.drop 1).head? = some '/') then
      -- ".." element: remove to last slash
      if dotdot < out.length then
        cleanLoop rooted fuel (t.drop 1) (cleanBacktrack out.reverse dotdot).reverse dotdot
      else if rooted = false then
        let out1 := if 0 < out.length then out ++ ['/'] else out
        let out2 := out1 ++ ['.', '.']
        cleanLoop rooted fuel (t.drop 1) out2 out2.length
      else
        cleanLoop rooted fuel (t.drop 1) out dotdot
    else
      -- real path element: add a slash if needed, then copy the element
      let out1 :=
        if (rooted = true ∧ out.length ≠ 1) ∨ (rooted = false ∧ out.length ≠ 0)
        then out ++ ['/'] else out
      cleanLoop rooted fuel ((c :: t).dropWhile (· ≠ '/'))
        (out1 ++ (c :: t).takeWhile (· ≠ '/')) dotdot

/-- Go `path.Clean`. -/
def pathClean (path : Str) : Str :=
  if path = [] then ['.']
  else
    let rooted : Bool := path.head? = some '/'
    let out :=
      if rooted then cleanLoop rooted path.length (path.drop 1) ['/'] 1
      else cleanLoop rooted path.length path [] 0
    if out = [] then ['.'] else out

/-- Go `path.Join(elem...)`: the non-empty elements joined with slashes and
cleaned; the empty string when every element is empty. -/
def pathJoin (elem : List Str) : Str :=
  match elem.filter (· ≠ []) with
  | [] => []
  | e :: es => pathClean (['/'].intercalate (e :: es))

/-! ## Descriptors (`descriptor.proto`, proto2: every scalar field is optional) -/

/-- The fields of `descriptor.MethodDescriptorProto` the program reads. -/
structure MethodDescriptorProto where
  Name : Option Str
  InputType : Option Str
  OutputType : Option Str
  ClientStreaming : Option Bool
  ServerStreaming : Option Bool
  deriving DecidableEq

/-- The fields of `descriptor.ServiceDescriptorProto` the program reads. -/
structure ServiceDescriptorProto where
  Name : Option Str
  Method : List MethodDescriptorProto
  deriving DecidableEq

/-- The field of `descriptor.FileOptions` the program reads. -/
structure FileOptions where
  GoPackage : Option Str
  deriving DecidableEq

/-- The fields of `descriptor.FileDescriptorProto` the program reads. -/
structure FileDescriptorProto where
  Name : Option Str
  Package : Option Str
  Options : Option FileOptions
  Service : List ServiceDescriptorProto
  deriving DecidableEq

/-- The field of `plugin.CodeGeneratorRequest` the program reads. -/
structure CodeGeneratorRequest where
  ProtoFile : List FileDescriptorProto
  deriving DecidableEq

/-- One entry of `plugin.CodeGeneratorResponse.File`. -/
structure CodeGeneratorResponse_File where
  Name : Str
  Content : Str
  deriving DecidableEq

/-- The field of `plugin.CodeGeneratorResponse` the program writes. -/
structure CodeGeneratorResponse where
  File : List CodeGeneratorResponse_File
  deriving DecidableEq

/-- Generated getter `GetName` (the empty string for an absent field). -/
def MethodDescriptorProto.GetName (m : MethodDescriptorProto) : Str := m.Name.getD []

/-- Generated getter `GetInputType`. -/
def MethodDescriptorProto.GetInputType (m : MethodDescriptorProto) : Str :=
  m.InputType.getD []

/-- Generated getter `GetOutputType`. -/
def MethodDescriptorProto.GetOutputType (m : MethodDescriptorProto) : Str :=
  m.OutputType.getD []

/-- Generated getter `GetClientStreaming` (false for an absent field). -/
def MethodDescriptorProto.GetClientStreaming (m : MethodDescriptorProto) : Bool :=
  m.ClientStreaming.getD false

/-- Generated getter `GetServerStreaming` (false for an absent field). -/
def MethodDescriptorProto.GetServerStreaming (m : MethodDescriptorProto) : Bool :=
  m.ServerStreaming.getD false

/-- Generated getter `GetName`. -/
def ServiceDescriptorProto.GetName (s : ServiceDescriptorProto) : Str := s.Name.getD []

/-- Generated getter `GetMethod`. -/
def ServiceDescriptorProto.GetMethod (s : ServiceDescriptorProto) :
    List MethodDescriptorProto := s.Method

/-- Generated getter `GetName`. -/
def FileDescriptorProto.GetName (d : FileDescriptorProto) : Str := d.Name.getD []

/-- Generated getter `GetPackage`. -/
def FileDescriptorProto.GetPackage (d : FileDescriptorProto) : Str := d.Package.getD []

/-- Generated getter `GetService`. -/
def FileDescriptorProto.GetService (d : FileDescriptorProto) :
    List ServiceDescriptorProto := d.Service

/-- The chain `fd.GetOptions().GetGoPackage()`: both getters accept a nil
receiver, so the result is the empty string when the options or the option
are absent. -/
def FileDescriptorProto.GetGoPackage (d : FileDescriptorProto) : Str :=
  match d.Options with
  | none => []
  | some o => o.GoPackage.getD []

/-! ## Ways the run can end early -/

/-- The fatal ends of a run. -/
inductive Fatal where
  /-- `log.Fatalf` in `getGoPackage`: the option holds more than one `;`. -/
  | goPackageSemicolons (pkg : Str)
  /-- The panic of `*d.Name` in `goFileName` on a file without a name. -/
  | nilName
  /-- `log.Fatal` in `generateResponse`: `format.Source` rejected the text. -/
  | goFmt (err : Str) (source : Str)
  deriving DecidableEq

/-- Equality of results is decidable, so results can be compared by evaluation. -/
instance instDecidableEqExcept {ε α : Type} [DecidableEq ε] [DecidableEq α] :
    DecidableEq (Except ε α)
  | .ok a, .ok b => if h : a = b then isTrue (by rw [h]) else isFalse (by intro h1; cases h1; exact h rfl)
  | .error a, .error b =>
    if h : a = b then isTrue (by rw [h]) else isFalse (by intro h1; cases h1; exact h rfl)
  | .ok _, .error _ => isFalse (by intro h; cases h)
  | .error _, .ok _ => isFalse (by intro h; cases h)

/-! ## Name resolver -/

/-- Go `baseName`: the last path element of the name, with the last dotted
suffix removed. -/
def baseName (name : Str) : Str :=
  let name1 :=
    match lastIndexByte name '/' with
    | some i => name.drop (i + 1)
    | none => name
  match lastIndexByte name1 '.' with
  | some i => name1.take i
  | none => name1

/-- Go `getGoPackage`. -/
def getGoPackage (fd : FileDescriptorProto) : Except Fatal Str :=
  let pkg := fd.GetGoPackage
  if stringsContains pkg ';' then
    let parts := stringsSplit pkg ';'
    if 2 < parts.length then .error (.goPackageSemicolons pkg)
    else .ok (parts.headD [])
  else .ok pkg

/-- Go `goPackageOption`, returning `(impPath, pkg, ok)`. -/
def goPackageOption (d : FileDescriptorProto) : Except Fatal (Str × Str × Bool) :=
  match getGoPackage d with
  | .error e => .error e
  | .ok pkg =>
    if pkg = [] then .ok ([], [], false)
    else
      -- The presence of a slash implies there's an import path.
      match lastIndexByte pkg '/' with
      | none => .ok ([], pkg, true)
      | some slash =>
        let impPath := pkg
        let pkg1 := pkg.drop (slash + 1)
        -- A semicolon-delimited suffix overrides the package name.
        match indexByte impPath ';' with
        | none => .ok (impPath, pkg1, true)
        | some sc => .ok (impPath.take sc, impPath.drop (sc + 1), true)

/-- Go `goPackageName`. -/
def goPackageName (d : FileDescriptorProto) : Except Fatal Str :=
  match goPackageOption d with
  | .error e => .error e
  | .ok (_, pkg, ok) =>
    if ok then .ok pkg
    else if d.GetPackage ≠ [] then .ok d.GetPackage
    else .ok (baseName d.GetName)

/-- Go `goFileName`. -/
def goFileName (d : FileDescriptorProto) : Except Fatal Str :=
  match d.Name with
  | none => .error .nilName
  | some name =>
    let ext := pathExt name
    let name1 :=
      if ext = ".proto".toList ∨ ext = ".protodevel".toList
      then name.take (name.length - ext.length) else name
    let name2 := name1 ++ ".assembly.go".toList
    match goPackageOption d with
    | .error e => .error e
    | .ok (impPath, _, ok) =>
      if ok = true ∧ impPath ≠ [] then
        .ok (pathJoin [impPath, (pathSplit name2).2])
      else .ok name2

/-! ## Parameters of the template -/

/-- Go `method`: the embedded descriptor and the three fields `parseRequest`
fills in. -/
structure method where
  Name : Str
  MethodDescriptorProto : MethodDescriptorProto
  serviceName : Str
  packageName : Str
  deriving DecidableEq

/-- Go `params`: the data provided to the template (the service descriptor
is embedded). -/
structure params where
  ServiceDescriptorProto : ServiceDescriptorProto
  ProtoName : Str
  PackageName : Str
  GoPackageName : Str
  Methods : List method
  fileName : Str
  GoFileName : Str
  deriving DecidableEq

/-- Go `fmt.Sprintf(".%s.", pkg)`. -/
def dotted (pkg : Str) : Str := ['.'] ++ pkg ++ ['.']

/-- Go `method.TrimmedInput`. -/
def method.TrimmedInput (m : method) : Str :=
  stringsTrimPrefix m.MethodDescriptorProto.GetInputType (dotted m.packageName)

/-- Go `method.TrimmedOutput`. -/
def method.TrimmedOutput (m : method) : Str :=
  stringsTrimPrefix m.MethodDescriptorProto.GetOutputType (dotted m.packageName)

/-- Go `method.StreamName`: `fmt.Sprintf("%s_%sServer", m.serviceName, m.GetName())`. -/
def method.StreamName (m : method) : Str :=
  m.serviceName ++ ['_'] ++ m.MethodDescriptorProto.GetName ++ "Server".toList

/-! ## The template -/

/-- What `text/template` prints for a value of type `*string`: the string
pointed to, or `<nil>` for a nil pointer. -/
def printValue : Option Str → Str
  | some s => s
  | none => "<nil>".toList

/-- The template variable `$TypeSuffix`. -/
def TypeSuffix : Str := "Assembly".toList

/-- The template variable `$MethodSuffix`. -/
def MethodSuffix : Str := "Method".toList

/-- The body of the first `range .Methods` of the template: the callback
field of one method inside the struct declaration. -/
def tmplField (m : method) : Str :=
  "\n\t\t".toList ++
  (if m.MethodDescriptorProto.GetClientStreaming then
      "\n\t\t\t".toList ++
      (if m.MethodDescriptorProto.GetServerStreaming then
          "\n\t\t\t\t".toList ++
          m.Name ++
          MethodSuffix ++
          " func(stream ".toList ++
          m.StreamName ++
          ") error \n\t\t\t".toList
        else
          "\t\n\t\t\t\t ".toList ++
          m.Name ++
          MethodSuffix ++
          " func(stream ".toList ++
          m.StreamName ++
          ") error \n\t\t\t".toList) ++
      "\n\t\t".toList
    else
      "\n\t\t\t".toList ++
      (if m.MethodDescriptorProto.GetServerStreaming then
          "\n\t\t\t\t".toList ++
          m.Name ++
          MethodSuffix ++
          " func(input *".toList ++
          m.TrimmedInput ++
          ", stream ".toList ++
          m.StreamName ++
          ") error\n\n\t\t\t".toList
        else
          "\n\t\t\t\t".toList ++
          m.Name ++
          MethodSuffix ++
          " func(ctx context.Context, input *".toList ++
          m.TrimmedInput ++
          ") (*".toList ++
          m.TrimmedOutput ++
          ", error)\n\t\t\t".toList) ++
      "\n\t\t".toList) ++
  "\n\t".toList

/-- The body of the second `range .Methods` of the template: the forwarding
method of one method.  (`typ` is `$Type`.) -/
def tmplForward (typ : Str) (m : method) : Str :=
  "\n\t".toList ++
  (if m.MethodDescriptorProto.GetClientStreaming then
      "\n\t\t".toList ++
      (if m.MethodDescriptorProto.GetServerStreaming then
          "\n\t\t\t// ".toList ++
          m.Name ++
          " calls the provided implementation, ".toList ++
          m.Name ++
          MethodSuffix ++
          ".\n\t\t\tfunc (t *".toList ++
          typ ++
          TypeSuffix ++
          ") ".toList ++
          m.Name ++
          "(stream ".toList ++
          m.StreamName ++
          ") error \x7b\n\t\t\t\treturn t.".toList ++
          m.Name ++
          MethodSuffix ++
          "(stream)\n\t\t\t\x7d\n\t\t".toList
        else
          "\t\n\t\t\t// ".toList ++
          m.Name ++
          " calls the provided implementation, ".toList ++
          m.Name ++
          MethodSuffix ++
          ".\n\t\t\tfunc (t *".toList ++
          typ ++
          TypeSuffix ++
          ") ".toList ++
          m.Name ++
          "(stream ".toList ++
          m.StreamName ++
          ") error \x7b\n\t\t\t\treturn t.".toList ++
          m.Name ++
          MethodSuffix ++
          "(stream)\n\t\t\t\x7d\n\t\t".toList) ++
      "\n\t".toList
    else
      "\n\t\t".toList ++
      (if m.MethodDescriptorProto.GetServerStreaming then
          "\n\t\t\t// ".toList ++
          m.Name ++
          " calls the provided implementation, ".toList ++
          m.Name ++
          MethodSuffix ++
          ".\n\t\t\tfunc (t *".toList ++
          typ ++
          TypeSuffix ++
          ") ".toList ++
          m.Name ++
          "(input *".toList ++
          m.TrimmedInput ++
          ", stream ".toList ++
          m.StreamName ++
          ") error \x7b\n\t\t\t\treturn t.".toList ++
          m.Name ++
          MethodSuffix ++
          "(input, stream)\n\t\t\t\x7d\n\t\t".toList
        else
          "\n\t\t\t// ".toList ++
          m.Name ++
          " calls the provided implementation, ".toList ++
          m.Name ++
          MethodSuffix ++
          ".\n\t\t\tfunc (t *".toList ++
          typ ++
          TypeSuffix ++
          ") ".toList ++
          m.Name ++
          "(ctx context.Context, input *".toList ++
          m.TrimmedInput ++
          ") (*".toList ++
          m.TrimmedOutput ++
          ", error) \x7b\n\t\t\t\treturn t.".toList ++
          m.Name ++
          MethodSuffix ++
          "(ctx, input)\n\t\t\t\x7d\n\t\t".toList) ++
      "\n\t".toList) ++
  "\n".toList

/-- The body of the third `range .Methods` of the template: the default
callback the constructor assigns for one method. -/
def tmplDefault (m : method) : Str :=
  "\n\t\t".toList ++
  (if m.MethodDescriptorProto.GetClientStreaming then
      "\n\t\t\t".toList ++
      (if m.MethodDescriptorProto.GetServerStreaming then
          "\n\t\t\t\tt.".toList ++
          m.Name ++
          MethodSuffix ++
          " = func(stream ".toList ++
          m.StreamName ++
          ") error \x7b\n\t\t\t\t\treturn status.Errorf(codes.Unimplemented, \"".toList ++
          m.Name ++
          " has not been implemented\")\n\t\t\t\t\x7d\n\t\t\t".toList
        else
          "\t\n\t\t\t\t t.".toList ++
          m.Name ++
          MethodSuffix ++
          " = func(stream ".toList ++
          m.StreamName ++
          ") error  \x7b\n\t\t\t\t\treturn status.Errorf(codes.Unimplemented, \"".toList ++
          m.Name ++
          " has not been implemented\")\n\t\t\t\t\x7d\n\t\t\t".toList) ++
      "\n\t\t".toList
    else
      "\n\t\t\t".toList ++
      (if m.MethodDescriptorProto.GetServerStreaming then
          "\n\t\t\t\tt.".toList ++
          m.Name ++
          MethodSuffix ++
          " = func(input *".toList ++
          m.TrimmedInput ++
          ", stream ".toList ++
          m.StreamName ++
          ") error \x7b\n\t\t\t\t\treturn status.Errorf(codes.Unimplemented, \"".toList ++
          m.Name ++
          " has not been implemented\")\n\t\t\t\t\x7d\n\n\t\t\t".toList
        else
          "\n\t\t\t\tt.".toList ++
          m.Name ++
          MethodSuffix ++
          " = func(ctx context.Context, input *".toList ++
          m.TrimmedInput ++
          ") (*".toList ++
          m.TrimmedOutput ++
          ", error) \x7b\n\t\t\t\t\treturn nil, status.Errorf(codes.Unimplemented, \"".toList ++
          m.Name ++
          " has not been implemented\")\n\t\t\t\t\x7d\n\t\t\t".toList) ++
      "\n\t\t".toList) ++
  "\n\t".toList

/-- The text `tmpl.Execute(w, p)` writes: the template of `main.go` with its
actions evaluated on `p`.  Text outside the actions is copied byte for byte
(the template uses no trim markers); the three variable declarations write
nothing.  Every action is a field, a getter or one of the three methods
above, none of which can fail, so execution returns no error. -/
def tmplExecute (p : params) : Str :=
  let typ := printValue p.ServiceDescriptorProto.Name
  "\n// Code initially generated by protoc-gen-grpc-impl\npackage ".toList ++
  p.GoPackageName ++
  "\n\nimport (\n\t\"google.golang.org/grpc\"\n\t\"google.golang.org/grpc/codes\"\n\t\"google.golang.org/grpc/status\"\n\n\t\"context\"\n)\n\n".toList ++
  "\n".toList ++
  "\n".toList ++
  "\n\n// ".toList ++
  typ ++
  TypeSuffix ++
  " is an implementation of the grpc-defined type, ".toList ++
  typ ++
  ".\n// Its members are functions which implement the defined rpc endpoints.\ntype ".toList ++
  typ ++
  TypeSuffix ++
  " struct \x7b\n\t".toList ++
  p.Methods.flatMap tmplField ++
  "\n\x7d\n\n".toList ++
  p.Methods.flatMap (tmplForward typ) ++
  "\n\n// Register associates the implementation with a grpc server.\nfunc (t *".toList ++
  typ ++
  TypeSuffix ++
  ") Register(srv *grpc.Server) \x7b\n\tRegister".toList ++
  typ ++
  "Server(srv, t)\n\x7d\n\n// New".toList ++
  typ ++
  TypeSuffix ++
  " creates an instance of ".toList ++
  typ ++
  " with unimplemented method stubs.\n// NOTE: you should provide your own functions which implement the underlying methods.\nfunc New".toList ++
  typ ++
  TypeSuffix ++
  "() *".toList ++
  typ ++
  TypeSuffix ++
  " \x7b\n\tvar t = new(".toList ++
  typ ++
  TypeSuffix ++
  ")\n\t".toList ++
  p.Methods.flatMap tmplDefault ++
  "\n\treturn t\n\x7d\n".toList

/-! ## The pipeline -/

/-- The body of the inner loop of `parseRequest`: the parameter record of one
service `svc` of the file `pf`.  The fields of the composite literal are
evaluated in the order written, `goPackageName(pf)` before `goFileName(pf)`. -/
def parseService (pf : FileDescriptorProto) (svc : ServiceDescriptorProto) :
    Except Fatal params :=
  let PackageName := pf.GetPackage
  let ProtoName := pf.GetName
  match goPackageName pf with
  | .error e => .error e
  | .ok GoPackageName =>
    match goFileName pf with
    | .error e => .error e
    | .ok GoFileName =>
      .ok
        { ServiceDescriptorProto := svc
          PackageName := PackageName
          ProtoName := ProtoName
          GoPackageName := GoPackageName
          GoFileName := GoFileName
          fileName := []
          Methods := svc.GetMethod.map fun mtd =>
            { MethodDescriptorProto := mtd
              Name := mtd.GetName
              serviceName := svc.GetName
              packageName := PackageName } }

/-- The inner loop of `parseRequest` over the services of `pf`; `ps` is
the slice built so far. -/
def parseServices (pf : FileDescriptorProto) :
    List ServiceDescriptorProto → List params → Except Fatal (List params)
  | [], ps => .ok ps
  | svc :: rest, ps =>
    match parseService pf svc with
    | .error e => .error e
    | .ok p => parseServices pf rest (ps ++ [p])

/-- The outer loop of `parseRequest` over the files of the request. -/
def parseFiles : List FileDescriptorProto → List params → Except Fatal (List params)
  | [], ps => .ok ps
  | pf :: rest, ps =>
    match parseServices pf pf.GetService ps with
    | .error e => .error e
    | .ok ps1 => parseFiles rest ps1

/-- Go `parseRequest`. -/
def parseRequest (req : CodeGeneratorRequest) : Except Fatal (List params) :=
  parseFiles req.ProtoFile []

/-- The loop of `generateResponse`; `resp` is the response built so far.
`format` stands for `go/format.Source`, which returns the formatted text or
an error. -/
def generateLoop (format : Str → Except Str Str) :
    List params → CodeGeneratorResponse → Except Fatal CodeGeneratorResponse
  | [], resp => .ok resp
  | p :: ps, resp =>
    let source := tmplExecute p
    match format source with
    | .error err => .error (.goFmt err source)
    | .ok fmted =>
      generateLoop format ps
        { File := resp.File ++ [{ Name := p.GoFileName, Content := fmted }] }

/-- Go `generateResponse`. -/
def generateResponse (format : Str → Except Str Str) (ps : List params) :
    Except Fatal CodeGeneratorResponse :=
  generateLoop format ps { File := [] }

/-- The part of `main` between decoding and encoding:
`generateResponse(parseRequest(req))`. -/
def run (format : Str → Except Str Str) (req : CodeGeneratorRequest) :
    Except Fatal CodeGeneratorResponse :=
  match parseRequest req with
  | .error e => .error e
  | .ok ps => generateResponse format ps

/-! ## Concrete inputs -/

/-- A file descriptor with the given name, package clause and `go_package`
option, and no services. -/
def mkFile (name : Option String) (pkg : Option String) (goPkg : Option String) :
    FileDescriptorProto :=
  { Name := name.map String.toList, Package := pkg.map String.toList,
    Options := some { GoPackage := goPkg.map String.toList }, Service := [] }

/-- A formatter that accepts every text and returns it unchanged. -/
def formatAccept (source : Str) : Except Str Str := .ok source

/-- The unary method `SayHello(HelloRequest) returns (HelloReply)` of the package
`helloworld`. -/
def sayHelloDescriptor : MethodDescriptorProto :=
  { Name := some "SayHello".toList
    InputType := some ".helloworld.HelloRequest".toList
    OutputType := some ".helloworld.HelloReply".toList
    ClientStreaming := none
    ServerStreaming := none }

/-- The service `Greeter` with the single method `SayHello`. -/
def greeter : ServiceDescriptorProto :=
  { Name := some "Greeter".toList, Method := [sayHelloDescriptor] }

/-- A method record of the package `helloworld` whose output type belongs to
another package. -/
def foreignReply : method :=
  { Name := "SayHello".toList
    MethodDescriptorProto :=
      { sayHelloDescriptor with OutputType := some ".google.protobuf.Empty".toList }
    serviceName := "Greeter".toList
    packageName := "helloworld".toList }

/-- The file `a/b.proto` with `go_package` `a;b;c` and no service. -/
def twoSemicolonsNoService : FileDescriptorProto := mkFile "a/b.proto" none "a;b;c"

/-- The file `a/b.proto` with `go_package` `a;b;c` and the service `Greeter`. -/
def twoSemicolonsGreeter : FileDescriptorProto :=
  { mkFile "a/b.proto" none "a;b;c" with Service := [greeter] }

/-- The file `a/b.proto` of the package `helloworld` with the service `Greeter`. -/
def helloFile : FileDescriptorProto :=
  { mkFile "a/b.proto" "helloworld" none with Service := [greeter] }

/-- The method record `parseRequest` builds for `SayHello` in `helloFile`. -/
def sayHello : method :=
  { Name := "SayHello".toList
    MethodDescriptorProto := sayHelloDescriptor
    serviceName := "Greeter".toList
    packageName := "helloworld".toList }

/-- The parameter record `parseRequest` builds for `Greeter` in `helloFile`. -/
def greeterParams : params :=
  { ServiceDescriptorProto := greeter
    ProtoName := "a/b.proto".toList
    PackageName := "helloworld".toList
    GoPackageName := "helloworld".toList
    Methods := [sayHello]
    fileName := []
    GoFileName := "a/b.assembly.go".toList }

/-- The method `SayHello` with the given streaming flags. -/
def sayHelloWith (client server : Option Bool) : MethodDescriptorProto :=
  { sayHelloDescriptor with ClientStreaming := client, ServerStreaming := server }

/-- The service `Greeter` whose method `SayHello` has the given streaming flags. -/
def greeterWith (client server : Option Bool) : ServiceDescriptorProto :=
  { Name := some "Greeter".toList, Method := [sayHelloWith client server] }

/-- The file `a/b.proto` of the package `helloworld` with the service
`greeterWith client server`. -/
def helloFileWith (client server : Option Bool) : FileDescriptorProto :=
  { mkFile "a/b.proto" "helloworld" none with Service := [greeterWith client server] }

/-- The parameter record `parseRequest` builds for the service of
`helloFileWith client server`. -/
def greeterParamsWith (client server : Option Bool) : params :=
  { ServiceDescriptorProto := greeterWith client server
    ProtoName := "a/b.proto".toList
    PackageName := "helloworld".toList
    GoPackageName := "helloworld".toList
    Methods :=
      [{ Name := "SayHello".toList
         MethodDescriptorProto := sayHelloWith client server
         serviceName := "Greeter".toList
         packageName := "helloworld".toList }]
    fileName := []
    GoFileName := "a/b.assembly.go".toList }

/-- A request with a file without services followed by `helloFile`. -/
def helloRequest : CodeGeneratorRequest :=
  { ProtoFile := [mkFile "x.proto" none none, helloFile] }

/-- The response to `helloRequest` under the formatter `formatAccept`. -/
def helloResponse : CodeGeneratorResponse :=
  { File := [{ Name := "a/b.assembly.go".toList, Content := tmplExecute greeterParams }] }

/-- The record of `Greeter` with an empty Go package name, which renders a
package clause without a name. -/
def greeterParamsNoPackage : params := { greeterParams with GoPackageName := [] }

/-- A formatter that rejects a text that starts with the header of the template
and a package clause without a name, and returns every other text unchanged. -/
def formatRejectNoPackage (source : Str) : Except Str Str :=
  if "\n// Code initially generated by protoc-gen-grpc-impl\npackage \n".toList <+: source
  then .error "expected 'IDENT'".toList else .ok source

/-- The unary method `SayHello(HelloRequest) returns (HelloReply)` of a file
without package clause: the type names carry only the leading dot. -/
def bareSayHello : MethodDescriptorProto :=
  { Name := some "SayHello".toList
    InputType := some ".HelloRequest".toList
    OutputType := some ".HelloReply".toList
    ClientStreaming := none
    ServerStreaming := none }

/-- The service `Greeter` with the method `bareSayHello`. -/
def bareGreeter : ServiceDescriptorProto :=
  { Name := some "Greeter".toList, Method := [bareSayHello] }

/-- The file `a/b.proto` without package clause and options, with the service
`bareGreeter`. -/
def bareFile : FileDescriptorProto :=
  { Name := some "a/b.proto".toList, Package := none, Options := none,
    Service := [bareGreeter] }

/-- The method record `parseRequest` builds for `SayHello` in `bareFile`. -/
def bareMethod : method :=
  { Name := "SayHello".toList
    MethodDescriptorProto := bareSayHello
    serviceName := "Greeter".toList
    packageName := [] }

/-- The parameter record `parseRequest` builds for `Greeter` in `bareFile`. -/
def bareParams : params :=
  { ServiceDescriptorProto := bareGreeter
    ProtoName := "a/b.proto".toList
    PackageName := []
    GoPackageName := "b".toList
    Methods := [bareMethod]
    fileName := []
    GoFileName := "a/b.assembly.go".toList }

/-- The service `Farewell` with the single method `SayHello`. -/
def farewell : ServiceDescriptorProto :=
  { Name := some "Farewell".toList, Method := [sayHelloDescriptor] }

/-- The file `a/b.proto` of the package `helloworld` with the two services
`Greeter` and `Farewell`. -/
def twoServiceFile : FileDescriptorProto :=
  { mkFile "a/b.proto" "helloworld" none with Service := [greeter, farewell] }

/-- The file `c/d.proto` of the package `helloworld` with the service `Greeter`. -/
def otherFile : FileDescriptorProto :=
  { mkFile "c/d.proto" "helloworld" none with Service := [greeter] }

/-- A request with a file without services, then `twoServiceFile`, then
`otherFile`. -/
def twoServiceRequest : CodeGeneratorRequest :=
  { ProtoFile := [mkFile "x.proto" none none, twoServiceFile, otherFile] }

/-- The parameter record `parseRequest` builds for `Farewell` in
`twoServiceFile`. -/
def farewellParams : params :=
  { greeterParams with
    ServiceDescriptorProto := farewell
    Methods := [{ sayHello with serviceName := "Farewell".toList }] }

/-- The parameter record `parseRequest` builds for `Greeter` in `otherFile`. -/
def otherParams : params :=
  { greeterParams with
    ProtoName := "c/d.proto".toList
    GoFileName := "c/d.assembly.go".toList }

/-- The response to `twoServiceRequest` under the formatter `formatAccept`. -/
def twoServiceResponse : CodeGeneratorResponse :=
  { File :=
      [{ Name := "a/b.assembly.go".toList, Content := tmplExecute greeterParams },
       { Name := "a/b.assembly.go".toList, Content := tmplExecute farewellParams },
       { Name := "c/d.assembly.go".toList, Content := tmplExecute otherParams }] }

/-! ## Descriptions used to state the properties -/

/-- The last slash-separated element of a path: what follows its last slash
(the whole path when it has no slash). -/
def lastElement (p : Str) : Str := (p.reverse.takeWhile (· ≠ '/')).reverse

/-- A string with everything from its last dot onward removed (the string
itself when it has no dot). -/
def beforeLastDot (e : Str) : Str :=
  if '.' ∈ e then ((e.reverse.dropWhile (· ≠ '.')).drop 1).reverse else e

/-- A file name with a final `.proto` or `.protodevel` removed (the name itself
when it ends in neither). -/
def trimProtoExt (name : Str) : Str :=
  if ".proto".toList <:+ name then name.take (name.length - ".proto".toList.length)
  else if ".protodevel".toList <:+ name then
    name.take (name.length - ".protodevel".toList.length)
  else name

/-- A path element that `path.Clean` copies unchanged: not empty, without
slash, and neither `.` nor `..`. -/
def plainElement (e : Str) : Prop := e ≠ [] ∧ '/' ∉ e ∧ e ≠ ['.'] ∧ e ≠ ['.', '.']

instance instDecidablePlainElement : DecidablePred plainElement := fun e => by
  unfold plainElement
  infer_instance

/-- The elements of a list, each with a slash in front: `/e1/e2/...`. -/
def slashTail (es : List Str) : Str := es.flatMap fun e => '/' :: e

/-- A method record with its input and output types replaced. -/
def method.withTypes (m : method) (input output : Option Str) : method :=
  { m with
    MethodDescriptorProto :=
      { m.MethodDescriptorProto with InputType := input, OutputType := output } }

/-- The assignment of a default callback in the constructor, for the method
name `M`, the parameters and results `sig` of the callback, and `ret`, what the
callback returns before the error. -/
def defaultAssignment (M sig ret : Str) : Str :=
  "t.".toList ++ M ++ "Method = func(".toList ++ sig ++ "\x7b\n\t\t\t\t\treturn ".toList ++ ret ++
    "status.Errorf(codes.Unimplemented, \"".toList ++ M ++
    " has not been implemented\")\n\t\t\t\t\x7d".toList

/-- The four shapes of a default callback: its parameters and results, and what
it returns before the error. -/
def defaultShapes (m : method) : List (Str × Str) :=
  [("stream ".toList ++ m.StreamName ++ ") error ".toList, []),
   ("stream ".toList ++ m.StreamName ++ ") error  ".toList, []),
   ("input *".toList ++ m.TrimmedInput ++ ", stream ".toList ++ m.StreamName ++
      ") error ".toList, []),
   ("ctx context.Context, input *".toList ++ m.TrimmedInput ++ ") (*".toList ++
      m.TrimmedOutput ++ ", error) ".toList, "nil, ".toList)]

/-- The parameter record `parseRequest` builds for the service `svc` of the
file `pf`, given the two resolved names of the file. -/
def paramsOf (pf : FileDescriptorProto) (n f : Str) (svc : ServiceDescriptorProto) : params :=
  { ServiceDescriptorProto := svc
    PackageName := pf.GetPackage
    ProtoName := pf.GetName
    GoPackageName := n
    GoFileName := f
    fileName := []
    Methods := svc.GetMethod.map fun mtd =>
      { MethodDescriptorProto := mtd
        Name := mtd.GetName
        serviceName := svc.GetName
        packageName := pf.GetPackage } }

/-- The parameter records of one file, in the order of its services: one record
per service when both names of the file resolve (and none otherwise). -/
def fileParams (pf : FileDescriptorProto) : List params :=
  match goPackageName pf, goFileName pf with
  | .ok n, .ok f => pf.GetService.map (paramsOf pf n f)
  | _, _ => []

/-! ## Facts about the library functions -/

theorem indexByte_eq_none {s : Str} {c : Char} : indexByte s c = none ↔ c ∉ s := by
  induction s with
  | nil => simp [indexByte]
  | cons x xs ih =>
    by_cases h : x = c
    · simp [indexByte, h]
    · simp [indexByte, h, ih, Ne.symm h]

theorem indexByte_append_cons {a b : Str} {c : Char} (h : c ∉ a) :
    indexByte (a ++ c :: b) c = some a.length := by
  induction a with
  | nil => simp [indexByte]
  | cons x xs ih =>
    have hx : x ≠ c := fun e => h (by simp [e])
    have hxs : c ∉ xs := fun e => h (by simp [e])
    simp [indexByte, hx, ih hxs]

theorem lastIndexByte_eq_none {s : Str} {c : Char} : lastIndexByte s c = none ↔ c ∉ s := by
  induction s with
  | nil => simp [lastIndexByte]
  | cons x xs ih =>
    cases hl : lastIndexByte xs c with
    | none =>
      have hxs : c ∉ xs := ih.mp hl
      by_cases h : x = c
      · simp [lastIndexByte, hl, h]
      · simp [lastIndexByte, hl, h, hxs, Ne.symm h]
    | some i =>
      have hxs : c ∈ xs := by
        by_contra hn
        rw [ih.mpr hn] at hl
        cases hl
      simp [lastIndexByte, hl, hxs]

theorem lastIndexByte_append_cons {a b : Str} {c : Char} (h : c ∉ b) :
    lastIndexByte (a ++ c :: b) c = some a.length := by
  induction a with
  | nil => simp [lastIndexByte, lastIndexByte_eq_none.mpr h]
  | cons x xs ih => simp [lastIndexByte, ih]

theorem stringsContains_iff {s : Str} {c : Char} : stringsContains s c = true ↔ c ∈ s := by
  unfold stringsContains
  cases h : indexByte s c with
  | none => simp [indexByte_eq_none.mp h]
  | some i =>
    have : c ∈ s := by
      by_contra hn
      rw [indexByte_eq_none.mpr hn] at h
      cases h
    simp [this]

theorem stringsSplit_ne_nil (s : Str) (c : Char) : stringsSplit s c ≠ [] := by
  cases s with
  | nil => simp [stringsSplit]
  | cons x xs =>
    unfold stringsSplit
    split
    · simp
    · split <;> simp

theorem stringsSplit_length (s : Str) (c : Char) :
    (stringsSplit s c).length = s.count c + 1 := by
  induction s with
  | nil => simp [stringsSplit]
  | cons x xs ih =>
    by_cases h : x = c
    · simp [stringsSplit, h, ih]
    · have hne := stringsSplit_ne_nil xs c
      cases hs : stringsSplit xs c with
      | nil => exact absurd hs hne
      | cons p ps =>
        rw [hs] at ih
        simp [stringsSplit, h, hs, List.count_cons] at ih ⊢
        omega

theorem stringsSplit_headD_of_not_mem {s : Str} {c : Char} (h : c ∉ s) :
    (stringsSplit s c).headD [] = s := by
  induction s with
  | nil => simp [stringsSplit]
  | cons x xs ih =>
    have hx : x ≠ c := fun e => h (by simp [e])
    have hxs : c ∉ xs := fun e => h (by simp [e])
    have := ih hxs
    cases hs : stringsSplit xs c with
    | nil => exact absurd hs (stringsSplit_ne_nil xs c)
    | cons p ps =>
      rw [hs] at this
      simp [stringsSplit, hx, hs] at this ⊢
      exact this

theorem stringsSplit_headD_append_cons {a b : Str} {c : Char} (h : c ∉ a) :
    (stringsSplit (a ++ c :: b) c).headD [] = a := by
  induction a with
  | nil => simp [stringsSplit]
  | cons x xs ih =>
    have hx : x ≠ c := fun e => h (by simp [e])
    have hxs : c ∉ xs := fun e => h (by simp [e])
    have := ih hxs
    cases hs : stringsSplit (xs ++ c :: b) c with
    | nil => exact absurd hs (stringsSplit_ne_nil _ c)
    | cons p ps =>
      rw [hs] at this
      simp [stringsSplit, hx, hs] at this ⊢
      exact this

theorem takeWhile_ne_append_cons {a b : Str} {c : Char} (h : c ∉ a) :
    (a ++ c :: b).takeWhile (· ≠ c) = a := by
  induction a with
  | nil => simp
  | cons x xs ih =>
    have hx : x ≠ c := fun e => h (by simp [e])
    have hxs : c ∉ xs := fun e => h (by simp [e])
    simpa [List.takeWhile_cons, hx] using ih hxs

theorem dropWhile_ne_append_cons {a b : Str} {c : Char} (h : c ∉ a) :
    (a ++ c :: b).dropWhile (· ≠ c) = c :: b := by
  induction a with
  | nil => simp
  | cons x xs ih =>
    have hx : x ≠ c := fun e => h (by simp [e])
    have hxs : c ∉ xs := fun e => h (by simp [e])
    simpa [List.dropWhile_cons, hx] using ih hxs

theorem takeWhile_ne_of_not_mem {a : Str} {c : Char} (h : c ∉ a) :
    a.takeWhile (· ≠ c) = a := by
  induction a with
  | nil => simp
  | cons x xs ih =>
    have hx : x ≠ c := fun e => h (by simp [e])
    have hxs : c ∉ xs := fun e => h (by simp [e])
    simpa [List.takeWhile_cons, hx] using ih hxs

theorem dropWhile_ne_of_not_mem {a : Str} {c : Char} (h : c ∉ a) :
    a.dropWhile (· ≠ c) = [] := by
  induction a with
  | nil => simp
  | cons x xs ih =>
    have hx : x ≠ c := fun e => h (by simp [e])
    have hxs : c ∉ xs := fun e => h (by simp [e])
    simpa [List.dropWhile_cons, hx] using ih hxs

/-- A string that holds `c` splits at its last `c`. -/
theorem exists_last_split {s : Str} {c : Char} (h : c ∈ s) :
    ∃ a b, s = a ++ c :: b ∧ c ∉ b := by
  have hr : c ∈ s.reverse := List.mem_reverse.mpr h
  obtain ⟨a, b, hab, ha⟩ := List.eq_append_cons_of_mem hr
  refine ⟨b.reverse, a.reverse, ?_, fun hin => ha (List.mem_reverse.mp hin)⟩
  have := congrArg List.reverse hab
  simpa using this

theorem lastIndexByte_eq_some {s : Str} {c : Char} {i : Nat}
    (h : lastIndexByte s c = some i) :
    ∃ a b, s = a ++ c :: b ∧ c ∉ b ∧ i = a.length := by
  have hmem : c ∈ s := by
    by_contra hn
    rw [lastIndexByte_eq_none.mpr hn] at h
    cases h
  obtain ⟨a, b, hab, hb⟩ := exists_last_split hmem
  refine ⟨a, b, hab, hb, ?_⟩
  rw [hab, lastIndexByte_append_cons hb] at h
  exact (Option.some.inj h).symm

theorem lastElement_append_cons {a b : Str} (hb : '/' ∉ b) :
    lastElement (a ++ '/' :: b) = b := by
  have hb2 : '/' ∉ b.reverse := fun hin => hb (List.mem_reverse.mp hin)
  unfold lastElement
  rw [List.reverse_append, List.reverse_cons, List.append_assoc, List.singleton_append,
    takeWhile_ne_append_cons hb2, List.reverse_reverse]

theorem lastElement_of_not_mem {s : Str} (h : '/' ∉ s) : lastElement s = s := by
  have h2 : '/' ∉ s.reverse := fun hin => h (List.mem_reverse.mp hin)
  unfold lastElement
  rw [takeWhile_ne_of_not_mem h2, List.reverse_reverse]

theorem lastElement_no_slash (s : Str) : '/' ∉ lastElement s := by
  intro h
  have h1 : '/' ∈ s.reverse.takeWhile (· ≠ '/') := List.mem_reverse.mp h
  have := List.mem_takeWhile_imp h1
  simp at this

theorem beforeLastDot_append_cons {a b : Str} (hb : '.' ∉ b) :
    beforeLastDot (a ++ '.' :: b) = a := by
  have hb2 : '.' ∉ b.reverse := fun hin => hb (List.mem_reverse.mp hin)
  unfold beforeLastDot
  rw [if_pos (by simp), List.reverse_append, List.reverse_cons, List.append_assoc,
    List.singleton_append, dropWhile_ne_append_cons hb2, List.drop_one, List.tail_cons,
    List.reverse_reverse]

theorem stringsHasPrefix_iff {s pre : Str} : stringsHasPrefix s pre = true ↔ pre <+: s := by
  unfold stringsHasPrefix
  rw [List.prefix_iff_eq_take, beq_iff_eq]
  exact eq_comm

theorem stringsTrimPrefix_append (pre r : Str) : stringsTrimPrefix (pre ++ r) pre = r := by
  have h : stringsHasPrefix (pre ++ r) pre = true :=
    stringsHasPrefix_iff.mpr (List.prefix_append pre r)
  simp [stringsTrimPrefix, h]

theorem stringsTrimPrefix_of_not_prefix {s pre : Str} (h : ¬ pre <+: s) :
    stringsTrimPrefix s pre = s := by
  have hf : stringsHasPrefix s pre = false := by
    cases hb : stringsHasPrefix s pre with
    | false => rfl
    | true => exact absurd (stringsHasPrefix_iff.mp hb) h
  simp [stringsTrimPrefix, hf]

theorem baseName_eq (name : Str) : baseName name = beforeLastDot (lastElement name) := by
  have key : ∀ e : Str,
      (match lastIndexByte e '.' with
        | some i => e.take i
        | none => e) = beforeLastDot e := by
    intro e
    cases h : lastIndexByte e '.' with
    | none =>
      have : '.' ∉ e := lastIndexByte_eq_none.mp h
      simp [beforeLastDot, this]
    | some i =>
      obtain ⟨a, b, hab, hb, hi⟩ := lastIndexByte_eq_some h
      subst hab hi
      simp [beforeLastDot_append_cons hb]
  unfold baseName
  cases h : lastIndexByte name '/' with
  | none =>
    have hn : '/' ∉ name := lastIndexByte_eq_none.mp h
    simp only [lastElement_of_not_mem hn]
    exact key name
  | some i =>
    obtain ⟨a, b, hab, hb, hi⟩ := lastIndexByte_eq_some h
    subst hab hi
    simp only [lastElement_append_cons hb]
    have hd : (a ++ '/' :: b).drop (a.length + 1) = b := by
      simp
    rw [hd]
    exact key b

theorem beforeLastDot_no_slash {e : Str} (h : '/' ∉ e) : '/' ∉ beforeLastDot e := by
  unfold beforeLastDot
  split
  · intro hin
    have h1 := List.mem_reverse.mp hin
    have h2 := List.mem_of_mem_drop h1
    have h3 := (List.dropWhile_sublist _).subset h2
    exact h (List.mem_reverse.mp h3)
  · exact h

theorem pathExtLoop_dot (y r : Str) (hy : ∀ c ∈ y, c ≠ '/' ∧ c ≠ '.') :
    ∀ acc, pathExtLoop (y ++ '.' :: r) acc = '.' :: (y.reverse ++ acc) := by
  induction y with
  | nil => intro acc; simp [pathExtLoop]
  | cons c y ih =>
    intro acc
    have hc := hy c (by simp)
    have hy2 : ∀ c ∈ y, c ≠ '/' ∧ c ≠ '.' := fun x hx => hy x (by simp [hx])
    simp [pathExtLoop, hc.1, hc.2, ih hy2]

theorem pathExtLoop_inv (r : Str) :
    ∀ acc, pathExtLoop r acc = [] ∨
      ∃ y r', r = y ++ '.' :: r' ∧ (∀ c ∈ y, c ≠ '/' ∧ c ≠ '.') ∧
        pathExtLoop r acc = '.' :: (y.reverse ++ acc) := by
  induction r with
  | nil => intro acc; exact Or.inl rfl
  | cons c r ih =>
    intro acc
    by_cases h1 : c = '/'
    · left; simp [pathExtLoop, h1]
    · by_cases h2 : c = '.'
      · right
        refine ⟨[], r, by simp [h2], by simp, ?_⟩
        subst h2
        simp [pathExtLoop]
      · rcases ih (c :: acc) with h | ⟨y, r', hr, hy, he⟩
        · left; simp [pathExtLoop, h1, h2, h]
        · right
          refine ⟨c :: y, r', by simp [hr], ?_, ?_⟩
          · intro x hx
            rcases List.mem_cons.mp hx with hx | hx
            · subst hx; exact ⟨h1, h2⟩
            · exact hy x hx
          · simp [pathExtLoop, h1, h2, he]

/-- The extension is `.s` exactly when the path ends in `.s`, for `s` without
dot and slash. -/
theorem pathExt_eq_dot_iff (s : Str) (hs1 : '/' ∉ s) (hs2 : '.' ∉ s) (n : Str) :
    pathExt n = '.' :: s ↔ ('.' :: s) <:+ n := by
  constructor
  · intro h
    unfold pathExt at h
    rcases pathExtLoop_inv n.reverse [] with h0 | ⟨y, r', hr, -, he⟩
    · rw [h0] at h; cases h
    · rw [he] at h
      have hs : s = y.reverse := by simpa using h.symm
      have hn : n = r'.reverse ++ '.' :: y.reverse := by
        have := congrArg List.reverse hr
        simpa using this
      exact ⟨r'.reverse, by rw [hn, hs]⟩
  · rintro ⟨x, hx⟩
    unfold pathExt
    have hr : n.reverse = s.reverse ++ '.' :: x.reverse := by
      rw [← hx]; simp
    rw [hr, pathExtLoop_dot]
    · simp
    · intro c hc
      have hcs : c ∈ s := List.mem_reverse.mp hc
      exact ⟨fun e => hs1 (e ▸ hcs), fun e => hs2 (e ▸ hcs)⟩

theorem pathExt_proto (n : Str) : pathExt n = ".proto".toList ↔ ".proto".toList <:+ n :=
  pathExt_eq_dot_iff "proto".toList (by decide) (by decide) n

theorem pathExt_protodevel (n : Str) :
    pathExt n = ".protodevel".toList ↔ ".protodevel".toList <:+ n :=
  pathExt_eq_dot_iff "protodevel".toList (by decide) (by decide) n

/-- The first step of `goFileName`, the removal of the extension, is
`trimProtoExt`. -/
theorem goFileName_trim (name : Str) :
    (if pathExt name = ".proto".toList ∨ pathExt name = ".protodevel".toList
      then name.take (name.length - (pathExt name).length) else name) = trimProtoExt name := by
  unfold trimProtoExt
  by_cases h1 : ".proto".toList <:+ name
  · have e1 := (pathExt_proto name).mpr h1
    rw [if_pos (Or.inl e1), if_pos h1, e1]
  · by_cases h2 : ".protodevel".toList <:+ name
    · have e2 := (pathExt_protodevel name).mpr h2
      rw [if_pos (Or.inr e2), if_neg h1, if_pos h2, e2]
    · have n1 : ¬ pathExt name = ".proto".toList := fun e => h1 ((pathExt_proto name).mp e)
      have n2 : ¬ pathExt name = ".protodevel".toList :=
        fun e => h2 ((pathExt_protodevel name).mp e)
      rw [if_neg (by rintro (e | e); exact n1 e; exact n2 e), if_neg h1, if_neg h2]

theorem intercalate_cons_eq (e : Str) (es : List Str) :
    ['/'].intercalate (e :: es) = e ++ slashTail es := by
  induction es generalizing e with
  | nil => simp [List.intercalate, slashTail]
  | cons x xs ih =>
    have h := ih x
    simp only [List.intercalate, List.intersperse, slashTail, List.flatMap_cons,
      List.flatten_cons] at h ⊢
    rw [h]
    simp

theorem slashTail_head (es : List Str) :
    slashTail es = [] ∨ (slashTail es).head? = some '/' := by
  cases es with
  | nil => left; rfl
  | cons e es => right; simp [slashTail]

/-- One turn of the loop of `path.Clean` on a plain element: the element is
copied to the output, after a slash when one is needed. -/
theorem cleanLoop_plain (rooted : Bool) (fuel : Nat) (e rest out : Str) (dotdot : Nat)
    (he : plainElement e) (hr : rest = [] ∨ rest.head? = some '/') :
    cleanLoop rooted (fuel + 1) (e ++ rest) out dotdot =
      cleanLoop rooted fuel rest
        ((if (rooted = true ∧ out.length ≠ 1) ∨ (rooted = false ∧ out.length ≠ 0)
          then out ++ ['/'] else out) ++ e) dotdot := by
  obtain ⟨hne, hsl, hd1, hd2⟩ := he
  have htake : (e ++ rest).takeWhile (· ≠ '/') = e := by
    rcases hr with hr | hr
    · subst hr; rw [List.append_nil]; exact takeWhile_ne_of_not_mem hsl
    · cases rest with
      | nil => cases hr
      | cons x xs =>
        have : x = '/' := by simpa using hr
        subst this
        exact takeWhile_ne_append_cons hsl
  have hdrop : (e ++ rest).dropWhile (· ≠ '/') = rest := by
    rcases hr with hr | hr
    · subst hr; rw [List.append_nil]; exact dropWhile_ne_of_not_mem hsl
    · cases rest with
      | nil => cases hr
      | cons x xs =>
        have : x = '/' := by simpa using hr
        subst this
        exact dropWhile_ne_append_cons hsl
  cases e with
  | nil => exact absurd rfl hne
  | cons c t =>
    have hc : c ≠ '/' := fun h => hsl (by simp [h])
    have ht : '/' ∉ t := fun h => hsl (by simp [h])
    have h2 : ¬ (c = '.' ∧ (t ++ rest = [] ∨ (t ++ rest).head? = some '/')) := by
      rintro ⟨hcd, h⟩
      cases t with
      | nil => exact hd1 (by rw [hcd])
      | cons u t' =>
        rcases h with h | h
        · cases h
        · have : u = '/' := by simpa using h
          exact ht (by simp [this])
    have h3 : ¬ (c = '.' ∧ (t ++ rest).head? = some '.' ∧
        ((t ++ rest).drop 1 = [] ∨ ((t ++ rest).drop 1).head? = some '/')) := by
      rintro ⟨hcd, hh, h⟩
      cases t with
      | nil =>
        rcases hr with hr | hr
        · subst hr; cases hh
        · rw [List.nil_append, hr] at hh
          cases hh
      | cons u t' =>
        have hu : u = '.' := by simpa using hh
        cases t' with
        | nil => exact hd2 (by rw [hcd, hu])
        | cons w t'' =>
          rcases h with h | h
          · cases h
          · have : w = '/' := by simpa using h
            exact ht (by simp [this])
    rw [List.cons_append] at htake hdrop ⊢
    rw [cleanLoop, if_neg hc, if_neg h2, if_neg h3, htake, hdrop]

/-- The loop of `path.Clean` copies a run of plain elements unchanged. -/
theorem cleanLoop_plain_list (rooted : Bool) (es : List Str)
    (hes : ∀ e ∈ es, plainElement e) :
    ∀ (fuel : Nat) (out : Str) (dotdot : Nat), (slashTail es).length ≤ fuel →
      ((rooted = true ∧ out.length ≠ 1) ∨ (rooted = false ∧ out.length ≠ 0)) →
      cleanLoop rooted fuel (slashTail es) out dotdot = out ++ slashTail es := by
  induction es with
  | nil =>
    intro fuel out dotdot _ _
    cases fuel <;> simp [slashTail, cleanLoop]
  | cons e es ih =>
    intro fuel out dotdot hfuel hout
    have he := hes e (by simp)
    have hes2 : ∀ x ∈ es, plainElement x := fun x hx => hes x (by simp [hx])
    have hlen : 0 < e.length := List.length_pos.mpr he.1
    have hst : slashTail (e :: es) = '/' :: (e ++ slashTail es) := by
      simp [slashTail]
    rw [hst] at hfuel ⊢
    simp only [List.length_cons, List.length_append] at hfuel
    obtain ⟨f, rfl⟩ : ∃ f, fuel = f + 2 := ⟨fuel - 2, by omega⟩
    rw [cleanLoop, if_pos rfl, cleanLoop_plain rooted f e (slashTail es) out dotdot he
      (slashTail_head es), if_pos hout]
    rw [ih hes2 f _ dotdot (by omega)]
    · simp
    · simp only [List.length_append, List.length_cons, List.length_nil]
      rcases hout with ⟨h, -⟩ | ⟨h, -⟩
      · left; exact ⟨h, by omega⟩
      · right; exact ⟨h, by omega⟩

/-- `path.Clean` returns an unrooted path of plain elements unchanged. -/
theorem pathClean_plain (e : Str) (es : List Str) (he : plainElement e)
    (hes : ∀ x ∈ es, plainElement x) :
    pathClean (e ++ slashTail es) = e ++ slashTail es := by
  have hne : e ++ slashTail es ≠ [] := by
    intro h
    exact he.1 (List.append_eq_nil.mp h).1
  have hlen : 0 < e.length := List.length_pos.mpr he.1
  have hroot : ((e ++ slashTail es).head? = some '/') = False := by
    cases e with
    | nil => exact absurd rfl he.1
    | cons c t =>
      have hc : c ≠ '/' := fun h => he.2.1 (by simp [h])
      simp [hc]
  unfold pathClean
  rw [if_neg hne]
  simp only [hroot, decide_False, Bool.false_eq_true, if_false]
  obtain ⟨f, hf⟩ : ∃ f, (e ++ slashTail es).length = f + 1 :=
    ⟨(e ++ slashTail es).length - 1, by simp only [List.length_append]; omega⟩
  rw [hf, cleanLoop_plain false f e (slashTail es) [] 0 he (slashTail_head es)]
  simp only [List.length_nil, ne_eq, not_true_eq_false, and_false, or_false,
    Bool.false_eq_true, false_and, if_false, List.nil_append]
  rw [cleanLoop_plain_list false es hes f e 0
    (by simp only [List.length_append] at hf; omega) (Or.inr ⟨rfl, by omega⟩)]
  rw [if_neg hne]

/-- `path.Clean` returns a rooted path of plain elements unchanged. -/
theorem pathClean_plain_rooted (e : Str) (es : List Str) (he : plainElement e)
    (hes : ∀ x ∈ es, plainElement x) :
    pathClean ('/' :: (e ++ slashTail es)) = '/' :: (e ++ slashTail es) := by
  have hlen : 0 < e.length := List.length_pos.mpr he.1
  unfold pathClean
  rw [if_neg (by simp)]
  simp only [List.head?_cons, decide_True, if_true, List.drop_one, List.tail_cons,
    List.length_cons]
  rw [cleanLoop_plain true _ e (slashTail es) ['/'] 1 he (slashTail_head es)]
  simp only [List.length_singleton, ne_eq, not_true_eq_false, and_false, false_or,
    Bool.true_eq_false, false_and, if_false]
  rw [cleanLoop_plain_list true es hes _ _ 1
    (by simp only [List.length_append]; omega)
    (Or.inl ⟨rfl, by simp only [List.length_append, List.length_singleton]; omega⟩)]
  simp

theorem trimProtoExt_append_proto (y : Str) : trimProtoExt (y ++ ".proto".toList) = y := by
  unfold trimProtoExt
  rw [if_pos (List.suffix_append _ _)]
  simp

theorem not_proto_suffix_protodevel (y : Str) :
    ¬ ".proto".toList <:+ y ++ ".protodevel".toList := by
  intro h
  have h2 : "odevel".toList <:+ y ++ ".protodevel".toList :=
    ⟨y ++ ".prot".toList, by simp⟩
  rcases List.suffix_or_suffix_of_suffix h h2 with h3 | h3
  · exact absurd (h3.eq_of_length (by decide)) (by decide)
  · exact absurd (h3.eq_of_length (by decide)) (by decide)

theorem trimProtoExt_append_protodevel (y : Str) :
    trimProtoExt (y ++ ".protodevel".toList) = y := by
  unfold trimProtoExt
  rw [if_neg (not_proto_suffix_protodevel y), if_pos (List.suffix_append _ _)]
  simp

theorem trimProtoExt_of_not {n : Str} (h1 : ¬ ".proto".toList <:+ n)
    (h2 : ¬ ".protodevel".toList <:+ n) : trimProtoExt n = n := by
  unfold trimProtoExt
  rw [if_neg h1, if_neg h2]

/-- A string without slash is a suffix of `a/b` only as a suffix of `b`. -/
theorem suffix_append_slash_iff {s a b : Str} (hs : '/' ∉ s) :
    s <:+ a ++ '/' :: b ↔ s <:+ b := by
  constructor
  · intro h
    have hb : b <:+ a ++ '/' :: b := ⟨a ++ ['/'], by simp⟩
    rcases List.suffix_or_suffix_of_suffix h hb with h3 | ⟨t, ht⟩
    · exact h3
    · obtain ⟨x, hx⟩ := h
      have hxt : x ++ t = a ++ ['/'] := by
        have : (x ++ t) ++ b = (a ++ ['/']) ++ b := by
          rw [List.append_assoc, ht, hx]; simp
        exact List.append_cancel_right this
      rcases List.eq_nil_or_concat t with ht0 | ⟨t', u, htu⟩
      · subst ht0
        exact ⟨[], by simpa using ht.symm⟩
      · subst htu
        have hu : u = '/' := by
          have h1 := congrArg List.getLast? hxt
          simp only [← List.append_assoc, List.concat_eq_append] at h1
          simpa using h1
        exfalso
        apply hs
        rw [← ht, hu]
        simp
  · rintro ⟨x, hx⟩
    exact ⟨a ++ '/' :: x, by simp [← hx]⟩

theorem trimProtoExt_append_slash (a b : Str) :
    trimProtoExt (a ++ '/' :: b) = a ++ '/' :: trimProtoExt b := by
  by_cases h1 : ".proto".toList <:+ b
  · obtain ⟨x, hx⟩ := h1
    subst hx
    rw [trimProtoExt_append_proto]
    have : a ++ '/' :: (x ++ ".proto".toList) = (a ++ '/' :: x) ++ ".proto".toList := by simp
    rw [this, trimProtoExt_append_proto]
  · by_cases h2 : ".protodevel".toList <:+ b
    · obtain ⟨x, hx⟩ := h2
      subst hx
      rw [trimProtoExt_append_protodevel]
      have : a ++ '/' :: (x ++ ".protodevel".toList)
          = (a ++ '/' :: x) ++ ".protodevel".toList := by simp
      rw [this, trimProtoExt_append_protodevel]
    · rw [trimProtoExt_of_not h1 h2]
      apply trimProtoExt_of_not
      · rw [suffix_append_slash_iff (by decide)]; exact h1
      · rw [suffix_append_slash_iff (by decide)]; exact h2

theorem trimProtoExt_no_slash {n : Str} (h : '/' ∉ n) : '/' ∉ trimProtoExt n := by
  unfold trimProtoExt
  split
  · exact fun hin => h (List.mem_of_mem_take hin)
  · split
    · exact fun hin => h (List.mem_of_mem_take hin)
    · exact h

theorem pathSplit_snd_of_not_mem {p : Str} (h : '/' ∉ p) : (pathSplit p).2 = p := by
  simp [pathSplit, lastIndexByte_eq_none.mpr h]

theorem pathSplit_snd_append_cons {a b : Str} (h : '/' ∉ b) :
    (pathSplit (a ++ '/' :: b)).2 = b := by
  simp [pathSplit, lastIndexByte_append_cons h]

/-- What `goFileName` keeps of the name under an import path: the last
element of the name, trimmed, with `.assembly.go`. -/
theorem pathSplit_trimmed (name : Str) :
    (pathSplit (trimProtoExt name ++ ".assembly.go".toList)).2
      = trimProtoExt (lastElement name) ++ ".assembly.go".toList := by
  by_cases h : '/' ∈ name
  · obtain ⟨a, b, hab, hb⟩ := exists_last_split h
    subst hab
    rw [lastElement_append_cons hb, trimProtoExt_append_slash, List.append_assoc,
      List.cons_append, pathSplit_snd_append_cons]
    intro hin
    rcases List.mem_append.mp hin with h1 | h1
    · exact trimProtoExt_no_slash hb h1
    · revert h1; decide
  · rw [lastElement_of_not_mem h, pathSplit_snd_of_not_mem]
    intro hin
    rcases List.mem_append.mp hin with h1 | h1
    · exact trimProtoExt_no_slash h h1
    · revert h1; decide

theorem plainElement_assembly (x : Str) (hx : '/' ∉ x) :
    plainElement (x ++ ".assembly.go".toList) := by
  refine ⟨?_, ?_, ?_, ?_⟩
  · intro h
    have := congrArg List.length h
    simp at this
  · intro hin
    rcases List.mem_append.mp hin with h1 | h1
    · exact hx h1
    · revert h1; decide
  · intro h
    have := congrArg List.length h
    simp at this
  · intro h
    have := congrArg List.length h
    simp at this

theorem pathJoin_pair {a b : Str} (ha : a ≠ []) (hb : b ≠ []) :
    pathJoin [a, b] = pathClean (a ++ '/' :: b) := by
  simp [pathJoin, List.filter, ha, hb, List.intercalate, List.intersperse]

theorem cleanLoop_nil (rooted : Bool) (fuel : Nat) (out : Str) (dotdot : Nat) :
    cleanLoop rooted fuel [] out dotdot = out := by
  cases fuel <;> rfl

/-- The loop of `path.Clean` on a path that ends in a slash and a plain element
`B` returns an output that ends in `B`. -/
theorem cleanLoop_ends (rooted : Bool) (B : Str) (hB : plainElement B) :
    ∀ (fuel : Nat) (X out : Str) (dotdot : Nat), (X ++ '/' :: B).length ≤ fuel →
      B <:+ cleanLoop rooted fuel (X ++ '/' :: B) out dotdot := by
  have hBlen : 0 < B.length := List.length_pos.mpr hB.1
  intro fuel
  induction fuel with
  | zero =>
    intro X out dotdot h
    simp only [List.length_append, List.length_cons] at h
    omega
  | succ fuel ih =>
    intro X out dotdot h
    simp only [List.length_append, List.length_cons] at h
    cases X with
    | nil =>
      rw [List.nil_append, cleanLoop, if_pos rfl]
      obtain ⟨f, rfl⟩ : ∃ f, fuel = f + 1 := ⟨fuel - 1, by simp at h; omega⟩
      have := cleanLoop_plain rooted f B [] out dotdot hB (Or.inl rfl)
      rw [List.append_nil] at this
      rw [this, cleanLoop_nil]
      exact List.suffix_append _ _
    | cons c X' =>
      simp only [List.length_cons] at h
      have hlen' : (X' ++ '/' :: B).length ≤ fuel := by
        simp only [List.length_append, List.length_cons]
        omega
      rw [List.cons_append, cleanLoop]
      split
      · exact ih X' _ _ hlen'
      · split
        · exact ih X' _ _ hlen'
        · rename_i hc1 hc2
          split
          · rename_i hc3
            obtain ⟨-, hhead, -⟩ := hc3
            cases X' with
            | nil => simp at hhead
            | cons d X'' =>
              have hlen'' : (X'' ++ '/' :: B).length ≤ fuel := by
                simp only [List.length_append, List.length_cons] at h ⊢
                omega
              have hdrop : ((d :: X'') ++ '/' :: B).drop 1 = X'' ++ '/' :: B := rfl
              rw [hdrop]
              split
              · exact ih X'' _ _ hlen''
              · split
                · exact ih X'' _ _ hlen''
                · exact ih X'' _ _ hlen''
          · have hdw : ∃ X2, (c :: (X' ++ '/' :: B)).dropWhile (· ≠ '/') = X2 ++ '/' :: B ∧
                (X2 ++ '/' :: B).length ≤ fuel := by
              by_cases hmem : '/' ∈ c :: X'
              · obtain ⟨a, b, hab, ha⟩ := List.eq_append_cons_of_mem hmem
                have hane : a ≠ [] := by
                  intro ha0
                  rw [ha0, List.nil_append] at hab
                  exact hc1 (List.cons.inj hab).1
                have hal : 0 < a.length := List.length_pos.mpr hane
                have hl := congrArg List.length hab
                simp only [List.length_cons, List.length_append] at hl
                refine ⟨'/' :: b, ?_, ?_⟩
                · rw [← List.cons_append, hab, List.append_assoc, List.cons_append,
                    dropWhile_ne_append_cons ha]
                · simp only [List.length_append, List.length_cons]
                  omega
              · refine ⟨[], ?_, ?_⟩
                · rw [← List.cons_append, dropWhile_ne_append_cons hmem]
                  rfl
                · simp only [List.nil_append, List.length_cons]
                  omega
            obtain ⟨X2, hX2, hX2len⟩ := hdw
            rw [hX2]
            exact ih X2 _ _ hX2len

/-- `path.Clean` of a non-empty path followed by a slash and a plain element `B`
ends in `B`. -/
theorem pathClean_ends (P B : Str) (hP : P ≠ []) (hB : plainElement B) :
    B <:+ pathClean (P ++ '/' :: B) := by
  have hBne : B ≠ [] := hB.1
  have key : ∀ out : Str, B <:+ out → B <:+ (if out = [] then ['.'] else out) := by
    intro out h
    have : out ≠ [] := by
      intro h0
      rw [h0] at h
      exact hBne (List.suffix_nil.mp h)
    rw [if_neg this]
    exact h
  cases P with
  | nil => exact absurd rfl hP
  | cons c P' =>
    unfold pathClean
    rw [if_neg (by simp)]
    dsimp only
    apply key
    by_cases hc : c = '/'
    · subst hc
      simp only [List.cons_append, List.head?_cons, decide_True, if_true, List.drop_one,
        List.tail_cons]
      exact cleanLoop_ends true B hB _ P' _ _ (by simp)
    · have hroot : ((c :: P' ++ '/' :: B).head? = some '/') = False := by
        simp [hc]
      simp only [hroot, decide_False, Bool.false_eq_true, if_false]
      exact cleanLoop_ends false B hB _ (c :: P') _ _ (by simp)

/-! ## Facts about the name resolver -/

theorem getGoPackage_of_not_mem {d : FileDescriptorProto} (h : ';' ∉ d.GetGoPackage) :
    getGoPackage d = .ok d.GetGoPackage := by
  have hc : stringsContains d.GetGoPackage ';' = false := by
    cases hb : stringsContains d.GetGoPackage ';' with
    | false => rfl
    | true => exact absurd (stringsContains_iff.mp hb) h
  simp [getGoPackage, hc]

theorem getGoPackage_of_one {d : FileDescriptorProto} {P N : Str}
    (hd : d.GetGoPackage = P ++ ';' :: N) (hP : ';' ∉ P) (hN : ';' ∉ N) :
    getGoPackage d = .ok P := by
  have hc : stringsContains d.GetGoPackage ';' = true := by
    rw [stringsContains_iff, hd]; simp
  have hcount : (P ++ ';' :: N).count ';' = 1 := by
    simp [List.count_append, List.count_cons, List.count_eq_zero_of_not_mem hP,
      List.count_eq_zero_of_not_mem hN]
  have hlen : ¬ 2 < (stringsSplit (P ++ ';' :: N) ';').length := by
    rw [stringsSplit_length, hcount]; omega
  rw [hd] at hc
  simp only [getGoPackage, hd, hc, if_true, hlen, if_false]
  rw [stringsSplit_headD_append_cons hP]

theorem getGoPackage_error_of_two {d : FileDescriptorProto}
    (h : 2 ≤ d.GetGoPackage.count ';') :
    getGoPackage d = .error (.goPackageSemicolons d.GetGoPackage) := by
  have hmem : ';' ∈ d.GetGoPackage := by
    apply List.count_pos_iff.mp; omega
  have hc : stringsContains d.GetGoPackage ';' = true := stringsContains_iff.mpr hmem
  have hlen : 2 < (stringsSplit d.GetGoPackage ';').length := by
    rw [stringsSplit_length]; omega
  simp [getGoPackage, hc, hlen]

theorem getGoPackage_ok_of_le_one {d : FileDescriptorProto}
    (h : d.GetGoPackage.count ';' ≤ 1) :
    ∃ pkg, getGoPackage d = .ok pkg ∧ ';' ∉ pkg := by
  by_cases hmem : ';' ∈ d.GetGoPackage
  · obtain ⟨P, N, hPN, hP⟩ := List.eq_append_cons_of_mem hmem
    have hN : ';' ∉ N := by
      intro hin
      have h2 : 2 ≤ d.GetGoPackage.count ';' := by
        rw [hPN]
        have := List.count_pos_iff.mpr hin
        simp [List.count_append, List.count_cons]
        omega
      omega
    exact ⟨P, getGoPackage_of_one hPN hP hN, hP⟩
  · exact ⟨_, getGoPackage_of_not_mem hmem, hmem⟩

theorem goPackageOption_nil {d : FileDescriptorProto} (h : getGoPackage d = .ok []) :
    goPackageOption d = .ok ([], [], false) := by
  simp [goPackageOption, h]

theorem goPackageOption_no_slash {d : FileDescriptorProto} {pkg : Str}
    (h : getGoPackage d = .ok pkg) (hne : pkg ≠ []) (hs : '/' ∉ pkg) :
    goPackageOption d = .ok ([], pkg, true) := by
  simp [goPackageOption, h, hne, lastIndexByte_eq_none.mpr hs]

theorem goPackageOption_slash {d : FileDescriptorProto} {a b : Str}
    (h : getGoPackage d = .ok (a ++ '/' :: b)) (hb : '/' ∉ b) (hsc : ';' ∉ a ++ '/' :: b) :
    goPackageOption d = .ok (a ++ '/' :: b, b, true) := by
  simp [goPackageOption, h, lastIndexByte_append_cons hb, indexByte_eq_none.mpr hsc]

theorem goPackageOption_error {d : FileDescriptorProto} {e : Fatal}
    (h : getGoPackage d = .error e) : goPackageOption d = .error e := by
  simp [goPackageOption, h]

theorem goPackageOption_ok_of_get {d : FileDescriptorProto} {pkg : Str}
    (h : getGoPackage d = .ok pkg) : ∃ v, goPackageOption d = .ok v := by
  unfold goPackageOption
  rw [h]
  dsimp only
  split
  · exact ⟨_, rfl⟩
  · split
    · exact ⟨_, rfl⟩
    · split <;> exact ⟨_, rfl⟩

theorem goPackageName_error {d : FileDescriptorProto} {e : Fatal}
    (h : goPackageOption d = .error e) : goPackageName d = .error e := by
  simp [goPackageName, h]

theorem goPackageName_ok_of_option {d : FileDescriptorProto} {v : Str × Str × Bool}
    (h : goPackageOption d = .ok v) : ∃ s, goPackageName d = .ok s := by
  obtain ⟨i, pkg, ok⟩ := v
  unfold goPackageName
  rw [h]
  dsimp only
  split
  · exact ⟨_, rfl⟩
  · split <;> exact ⟨_, rfl⟩

theorem getGoPackage_eq_takeWhile {d : FileDescriptorProto}
    (h : d.GetGoPackage.count ';' ≤ 1) :
    getGoPackage d = .ok (d.GetGoPackage.takeWhile (· ≠ ';')) := by
  by_cases hmem : ';' ∈ d.GetGoPackage
  · obtain ⟨P, N, hPN, hP⟩ := List.eq_append_cons_of_mem hmem
    have hN : ';' ∉ N := by
      intro hin
      have h2 : 2 ≤ d.GetGoPackage.count ';' := by
        rw [hPN]
        have := List.count_pos_iff.mpr hin
        simp [List.count_append, List.count_cons]
        omega
      omega
    rw [getGoPackage_of_one hPN hP hN, hPN, takeWhile_ne_append_cons hP]
  · rw [getGoPackage_of_not_mem hmem, takeWhile_ne_of_not_mem hmem]

theorem takeWhile_ne_not_mem (s : Str) (c : Char) : c ∉ s.takeWhile (· ≠ c) := by
  intro h
  have := List.mem_takeWhile_imp h
  simp at this

theorem goFileName_eq {d : FileDescriptorProto} {name imp pkg : Str} {ok : Bool}
    (hn : d.Name = some name) (ho : goPackageOption d = .ok (imp, pkg, ok)) :
    goFileName d = .ok
      (if ok = true ∧ imp ≠ [] then
        pathJoin [imp, (pathSplit (trimProtoExt name ++ ".assembly.go".toList)).2]
      else trimProtoExt name ++ ".assembly.go".toList) := by
  unfold goFileName
  rw [hn]
  dsimp only
  rw [ho, goFileName_trim]
  dsimp only
  split <;> rfl

theorem goPackageName_error_inv {d : FileDescriptorProto} {e : Fatal}
    (h : goPackageName d = .error e) :
    2 ≤ d.GetGoPackage.count ';' ∧ e = .goPackageSemicolons d.GetGoPackage := by
  by_cases h2 : 2 ≤ d.GetGoPackage.count ';'
  · have := goPackageName_error (goPackageOption_error (getGoPackage_error_of_two h2))
    rw [this] at h
    exact ⟨h2, (Except.error.inj h).symm⟩
  · obtain ⟨pkg, hg, -⟩ := getGoPackage_ok_of_le_one (by omega : d.GetGoPackage.count ';' ≤ 1)
    obtain ⟨v, ho⟩ := goPackageOption_ok_of_get hg
    obtain ⟨n, hn⟩ := goPackageName_ok_of_option ho
    rw [hn] at h
    cases h

theorem goFileName_error_inv {d : FileDescriptorProto} {e : Fatal}
    (h : goFileName d = .error e) :
    (d.Name = none ∧ e = .nilName) ∨
      (2 ≤ d.GetGoPackage.count ';' ∧ e = .goPackageSemicolons d.GetGoPackage) := by
  unfold goFileName at h
  cases hn : d.Name with
  | none =>
    rw [hn] at h
    exact Or.inl ⟨rfl, (Except.error.inj h).symm⟩
  | some name =>
    rw [hn] at h
    dsimp only at h
    cases ho : goPackageOption d with
    | error e1 =>
      rw [ho] at h
      have he : e1 = e := Except.error.inj h
      subst he
      exact Or.inr (goPackageName_error_inv (goPackageName_error ho))
    | ok v =>
      obtain ⟨i, pkg, ok⟩ := v
      rw [ho] at h
      dsimp only at h
      split at h <;> cases h

theorem parseService_error_inv {pf : FileDescriptorProto} {svc : ServiceDescriptorProto}
    {e : Fatal} (h : parseService pf svc = .error e) :
    (pf.Name = none ∧ e = .nilName) ∨
      (2 ≤ pf.GetGoPackage.count ';' ∧ e = .goPackageSemicolons pf.GetGoPackage) := by
  unfold parseService at h
  cases hn : goPackageName pf with
  | error e1 =>
    rw [hn] at h
    have he : e1 = e := Except.error.inj h
    subst he
    exact Or.inr (goPackageName_error_inv hn)
  | ok n =>
    rw [hn] at h
    dsimp only at h
    cases hf : goFileName pf with
    | error e1 =>
      rw [hf] at h
      have he : e1 = e := Except.error.inj h
      subst he
      exact goFileName_error_inv hf
    | ok f =>
      rw [hf] at h
      cases h

theorem parseService_error_of_two {pf : FileDescriptorProto} (svc : ServiceDescriptorProto)
    (h : 2 ≤ pf.GetGoPackage.count ';') :
    parseService pf svc = .error (.goPackageSemicolons pf.GetGoPackage) := by
  have := goPackageName_error (goPackageOption_error (getGoPackage_error_of_two h))
  simp [parseService, this]

theorem parseServices_error_inv {pf : FileDescriptorProto} {e : Fatal} :
    ∀ (svcs : List ServiceDescriptorProto) (ps : List params),
      parseServices pf svcs ps = .error e →
      (pf.Name = none ∧ e = .nilName) ∨
        (2 ≤ pf.GetGoPackage.count ';' ∧ e = .goPackageSemicolons pf.GetGoPackage) := by
  intro svcs
  induction svcs with
  | nil => intro ps h; cases h
  | cons svc rest ih =>
    intro ps h
    unfold parseServices at h
    cases hp : parseService pf svc with
    | error e1 =>
      rw [hp] at h
      have he : e1 = e := Except.error.inj h
      subst he
      exact parseService_error_inv hp
    | ok p =>
      rw [hp] at h
      exact ih _ h

theorem parseServices_error_of_two {pf : FileDescriptorProto}
    {svcs : List ServiceDescriptorProto} (ps : List params) (hs : svcs ≠ [])
    (h : 2 ≤ pf.GetGoPackage.count ';') :
    parseServices pf svcs ps = .error (.goPackageSemicolons pf.GetGoPackage) := by
  cases svcs with
  | nil => exact absurd rfl hs
  | cons svc rest => simp [parseServices, parseService_error_of_two svc h]

theorem parseFiles_error_of_two {f : FileDescriptorProto} (hs : f.GetService ≠ [])
    (h2 : 2 ≤ f.GetGoPackage.count ';') :
    ∀ (files : List FileDescriptorProto) (ps : List params), f ∈ files →
      ∃ e, parseFiles files ps = .error e ∧
        ((e = .nilName ∧ ∃ g ∈ files, g.Name = none) ∨
          (∃ g ∈ files, 2 ≤ g.GetGoPackage.count ';' ∧
            e = .goPackageSemicolons g.GetGoPackage)) := by
  intro files
  induction files with
  | nil => intro ps hf; cases hf
  | cons pf rest ih =>
    intro ps hf
    unfold parseFiles
    cases hp : parseServices pf pf.GetService ps with
    | error e =>
      refine ⟨e, rfl, ?_⟩
      rcases parseServices_error_inv _ _ hp with ⟨hn, he⟩ | ⟨hc, he⟩
      · exact Or.inl ⟨he, pf, by simp, hn⟩
      · exact Or.inr ⟨pf, by simp, hc, he⟩
    | ok ps1 =>
      have hne : f ≠ pf := by
        intro heq
        subst heq
        rw [parseServices_error_of_two ps hs h2] at hp
        cases hp
      have hin : f ∈ rest := by
        rcases List.mem_cons.mp hf with h | h
        · exact absurd h hne
        · exact h
      obtain ⟨e, he, hcl⟩ := ih ps1 hin
      refine ⟨e, he, ?_⟩
      rcases hcl with ⟨hn, g, hg, hgn⟩ | ⟨g, hg, hc, hge⟩
      · exact Or.inl ⟨hn, g, List.mem_cons_of_mem _ hg, hgn⟩
      · exact Or.inr ⟨g, List.mem_cons_of_mem _ hg, hc, hge⟩

theorem getGoPackage_ok_no_semicolon {d : FileDescriptorProto} {pkg : Str}
    (h : getGoPackage d = .ok pkg) : ';' ∉ pkg := by
  by_cases h2 : 2 ≤ d.GetGoPackage.count ';'
  · rw [getGoPackage_error_of_two h2] at h
    cases h
  · obtain ⟨pkg1, hg, hno⟩ :=
      getGoPackage_ok_of_le_one (by omega : d.GetGoPackage.count ';' ≤ 1)
    rw [hg] at h
    have : pkg1 = pkg := Except.ok.inj h
    rw [← this]
    exact hno

theorem goPackageOption_congr {d1 d2 : FileDescriptorProto}
    (h : getGoPackage d1 = getGoPackage d2) : goPackageOption d1 = goPackageOption d2 := by
  unfold goPackageOption
  rw [h]

/-- What `goPackageOption` returns holds no semicolon. -/
theorem goPackageOption_no_semicolon {d : FileDescriptorProto} {imp pkg : Str} {ok : Bool}
    (h : goPackageOption d = .ok (imp, pkg, ok)) : ';' ∉ imp ∧ ';' ∉ pkg := by
  unfold goPackageOption at h
  cases hg : getGoPackage d with
  | error e => rw [hg] at h; cases h
  | ok g =>
    have hno := getGoPackage_ok_no_semicolon hg
    rw [hg] at h
    dsimp only at h
    split at h
    · cases h
      exact ⟨by simp, by simp⟩
    · split at h
      · cases h
        exact ⟨by simp, hno⟩
      · rw [indexByte_eq_none.mpr hno] at h
        cases h
        exact ⟨hno, fun hin => hno (List.mem_of_mem_drop hin)⟩

/-! ## Facts about the request parser -/

/-- What a successful `parseService` returns. -/
theorem parseService_ok {pf : FileDescriptorProto} {svc : ServiceDescriptorProto} {p : params}
    (h : parseService pf svc = .ok p) :
    p.ServiceDescriptorProto = svc ∧ p.ProtoName = pf.GetName ∧
    p.PackageName = pf.GetPackage ∧ goPackageName pf = .ok p.GoPackageName ∧
    goFileName pf = .ok p.GoFileName ∧
    p.Methods = svc.GetMethod.map fun mtd =>
      { MethodDescriptorProto := mtd
        Name := mtd.GetName
        serviceName := svc.GetName
        packageName := pf.GetPackage } := by
  unfold parseService at h
  cases hn : goPackageName pf with
  | error e => rw [hn] at h; cases h
  | ok n =>
    rw [hn] at h
    dsimp only at h
    cases hf : goFileName pf with
    | error e => rw [hf] at h; cases h
    | ok f =>
      rw [hf] at h
      have hp := Except.ok.inj h
      subst hp
      exact ⟨rfl, rfl, rfl, rfl, rfl, rfl⟩

/-- The fields of a method record built by `parseService`. -/
theorem parseService_method {pf : FileDescriptorProto} {svc : ServiceDescriptorProto}
    {p : params} {m : method} (h : parseService pf svc = .ok p) (hm : m ∈ p.Methods) :
    m.MethodDescriptorProto ∈ svc.GetMethod ∧ m.Name = m.MethodDescriptorProto.GetName ∧
    m.serviceName = svc.GetName ∧ m.packageName = pf.GetPackage := by
  obtain ⟨-, -, -, -, -, hms⟩ := parseService_ok h
  rw [hms] at hm
  obtain ⟨mtd, hmtd, rfl⟩ := List.mem_map.mp hm
  exact ⟨hmtd, rfl, rfl, rfl⟩

theorem parseService_eq_paramsOf {pf : FileDescriptorProto} {n f : Str}
    (hn : goPackageName pf = .ok n) (hf : goFileName pf = .ok f)
    (svc : ServiceDescriptorProto) : parseService pf svc = .ok (paramsOf pf n f svc) := by
  unfold parseService
  rw [hn]
  dsimp only
  rw [hf]
  rfl

theorem parseService_ok_resolves {pf : FileDescriptorProto} {svc : ServiceDescriptorProto}
    {p : params} (h : parseService pf svc = .ok p) :
    ∃ n f, goPackageName pf = .ok n ∧ goFileName pf = .ok f :=
  ⟨_, _, (parseService_ok h).2.2.2.1, (parseService_ok h).2.2.2.2.1⟩

/-- The inner loop of `parseRequest` on a file whose names resolve appends one
record per service. -/
theorem parseServices_ok_of {pf : FileDescriptorProto} {n f : Str}
    (hn : goPackageName pf = .ok n) (hf : goFileName pf = .ok f) :
    ∀ (svcs : List ServiceDescriptorProto) (ps : List params),
      parseServices pf svcs ps = .ok (ps ++ svcs.map (paramsOf pf n f)) := by
  intro svcs
  induction svcs with
  | nil => intro ps; simp [parseServices]
  | cons svc rest ih =>
    intro ps
    unfold parseServices
    rw [parseService_eq_paramsOf hn hf svc]
    dsimp only
    rw [ih]
    simp

theorem fileParams_of_resolves {pf : FileDescriptorProto} {n f : Str}
    (hn : goPackageName pf = .ok n) (hf : goFileName pf = .ok f) :
    fileParams pf = pf.GetService.map (paramsOf pf n f) := by
  unfold fileParams
  rw [hn, hf]

theorem fileParams_of_no_service {pf : FileDescriptorProto} (h : pf.GetService = []) :
    fileParams pf = [] := by
  unfold fileParams
  split
  · rw [h]; rfl
  · rfl

/-- When the inner loop of `parseRequest` returns, it has appended the records of
the file, and the names of a file with services have resolved. -/
theorem parseServices_ok_inv {pf : FileDescriptorProto} {ps0 ps : List params}
    (h : parseServices pf pf.GetService ps0 = .ok ps) :
    ps = ps0 ++ fileParams pf ∧
      (pf.GetService ≠ [] → ∃ n f, goPackageName pf = .ok n ∧ goFileName pf = .ok f) := by
  cases hs : pf.GetService with
  | nil =>
    rw [hs] at h
    have : ps0 = ps := Except.ok.inj h
    subst this
    exact ⟨by rw [fileParams_of_no_service hs, List.append_nil], fun hne => absurd rfl hne⟩
  | cons svc rest =>
    have hres : ∃ n f, goPackageName pf = .ok n ∧ goFileName pf = .ok f := by
      rw [hs] at h
      unfold parseServices at h
      cases hp : parseService pf svc with
      | error e => rw [hp] at h; cases h
      | ok p => exact parseService_ok_resolves hp
    obtain ⟨n, f, hn, hf⟩ := hres
    rw [parseServices_ok_of hn hf] at h
    have : ps0 ++ pf.GetService.map (paramsOf pf n f) = ps := Except.ok.inj h
    rw [fileParams_of_resolves hn hf]
    exact ⟨this.symm, fun _ => ⟨n, f, hn, hf⟩⟩

/-- When `parseRequest`'s outer loop returns, it has appended the records of the
files in order, and the names of every file with services have resolved. -/
theorem parseFiles_ok_inv :
    ∀ (files : List FileDescriptorProto) (ps0 ps : List params),
      parseFiles files ps0 = .ok ps →
      ps = ps0 ++ files.flatMap fileParams ∧
        ∀ pf ∈ files, pf.GetService ≠ [] →
          ∃ n f, goPackageName pf = .ok n ∧ goFileName pf = .ok f := by
  intro files
  induction files with
  | nil =>
    intro ps0 ps h
    have : ps0 = ps := Except.ok.inj h
    subst this
    exact ⟨by simp, fun pf hpf => by cases hpf⟩
  | cons pf rest ih =>
    intro ps0 ps h
    unfold parseFiles at h
    cases hp : parseServices pf pf.GetService ps0 with
    | error e => rw [hp] at h; cases h
    | ok ps1 =>
      rw [hp] at h
      obtain ⟨h1, hres1⟩ := parseServices_ok_inv hp
      obtain ⟨h2, hres2⟩ := ih ps1 ps h
      refine ⟨by rw [h2, h1]; simp, ?_⟩
      intro g hg hne
      rcases List.mem_cons.mp hg with hg | hg
      · subst hg; exact hres1 hne
      · exact hres2 g hg hne

/-- The outer loop of `parseRequest` returns when the names of every file with
services resolve. -/
theorem parseFiles_ok_of :
    ∀ (files : List FileDescriptorProto) (ps0 : List params),
      (∀ pf ∈ files, pf.GetService ≠ [] →
        (∃ n, goPackageName pf = .ok n) ∧ ∃ f, goFileName pf = .ok f) →
      parseFiles files ps0 = .ok (ps0 ++ files.flatMap fileParams) := by
  intro files
  induction files with
  | nil => intro ps0 _; simp [parseFiles]
  | cons pf rest ih =>
    intro ps0 hres
    have hp : parseServices pf pf.GetService ps0 = .ok (ps0 ++ fileParams pf) := by
      by_cases hs : pf.GetService = []
      · rw [fileParams_of_no_service hs, hs]
        simp [parseServices]
      · obtain ⟨⟨n, hn⟩, f, hf⟩ := hres pf (by simp) hs
        rw [parseServices_ok_of hn hf, fileParams_of_resolves hn hf]
    unfold parseFiles
    rw [hp]
    dsimp only
    rw [ih _ (fun g hg => hres g (List.mem_cons_of_mem _ hg))]
    simp

/-- The names and the number of the records of one file. -/
theorem fileParams_names {pf : FileDescriptorProto}
    (h : pf.GetService ≠ [] → ∃ n f, goPackageName pf = .ok n ∧ goFileName pf = .ok f) :
    (fileParams pf).map (fun p => (Except.ok p.GoFileName : Except Fatal Str))
        = pf.GetService.map (fun _ => goFileName pf) ∧
      (fileParams pf).length = pf.GetService.length := by
  by_cases hs : pf.GetService = []
  · rw [fileParams_of_no_service hs, hs]
    exact ⟨rfl, rfl⟩
  · obtain ⟨n, f, hn, hf⟩ := h hs
    rw [fileParams_of_resolves hn hf, hf]
    constructor
    · rw [List.map_map]
      rfl
    · simp

theorem mem_fileParams {pf : FileDescriptorProto} {p : params} (h : p ∈ fileParams pf) :
    ∃ n f svc, svc ∈ pf.GetService ∧ p = paramsOf pf n f svc ∧
      goPackageName pf = .ok n ∧ goFileName pf = .ok f := by
  unfold fileParams at h
  split at h
  · rename_i n f hn hf
    obtain ⟨svc, hsvc, rfl⟩ := List.mem_map.mp h
    exact ⟨n, f, svc, hsvc, rfl, hn, hf⟩
  · cases h

/-! ## Facts about the response loop -/

/-- When the loop of `generateResponse` returns, it has appended one entry per
parameter record, in order, named by the record's `GoFileName`. -/
theorem generateLoop_ok_names (format : Str → Except Str Str) :
    ∀ (ps : List params) (resp0 resp : CodeGeneratorResponse),
      generateLoop format ps resp0 = .ok resp →
      resp.File.map (fun e => e.Name) = resp0.File.map (fun e => e.Name) ++
        ps.map (fun p => p.GoFileName) := by
  intro ps
  induction ps with
  | nil =>
    intro resp0 resp h
    have : resp0 = resp := Except.ok.inj h
    subst this
    simp
  | cons p rest ih =>
    intro resp0 resp h
    unfold generateLoop at h
    dsimp only at h
    cases hf : format (tmplExecute p) with
    | error err => rw [hf] at h; cases h
    | ok fmted =>
      rw [hf] at h
      have := ih _ _ h
      rw [this]
      simp

/-- The loop of `generateResponse` returns when the formatter accepts every
rendered text. -/
theorem generateLoop_ok_of (format : Str → Except Str Str) :
    ∀ (ps : List params) (resp0 : CodeGeneratorResponse),
      (∀ p ∈ ps, ∃ t, format (tmplExecute p) = .ok t) →
      ∃ resp, generateLoop format ps resp0 = .ok resp := by
  intro ps
  induction ps with
  | nil => intro resp0 _; exact ⟨resp0, rfl⟩
  | cons p rest ih =>
    intro resp0 h
    obtain ⟨t, ht⟩ := h p (by simp)
    unfold generateLoop
    dsimp only
    rw [ht]
    exact ih _ (fun q hq => h q (List.mem_cons_of_mem _ hq))

/-- The loop of `generateResponse` aborts at the first rejected text. -/
theorem generateLoop_error_at (format : Str → Except Str Str) {p : params} {err : Str}
    (he : format (tmplExecute p) = .error err) (post : List params) :
    ∀ (pre : List params) (resp0 : CodeGeneratorResponse),
      (∀ q ∈ pre, ∃ t, format (tmplExecute q) = .ok t) →
      generateLoop format (pre ++ p :: post) resp0 = .error (.goFmt err (tmplExecute p)) := by
  intro pre
  induction pre with
  | nil =>
    intro resp0 _
    simp [generateLoop, he]
  | cons q rest ih =>
    intro resp0 h
    obtain ⟨t, ht⟩ := h q (by simp)
    rw [List.cons_append]
    unfold generateLoop
    dsimp only
    rw [ht]
    exact ih _ (fun r hr => h r (List.mem_cons_of_mem _ hr))

/-- The loop of `generateResponse` aborts when some text is rejected. -/
theorem generateLoop_error_of_mem (format : Str → Except Str Str) {p : params} {err : Str}
    (he : format (tmplExecute p) = .error err) :
    ∀ (ps : List params) (resp0 : CodeGeneratorResponse), p ∈ ps →
      ∃ e, generateLoop format ps resp0 = .error e := by
  intro ps
  induction ps with
  | nil => intro resp0 hp; cases hp
  | cons q rest ih =>
    intro resp0 hp
    unfold generateLoop
    dsimp only
    cases hq : format (tmplExecute q) with
    | error e => exact ⟨_, rfl⟩
    | ok t =>
      rcases List.mem_cons.mp hp with h | h
      · subst h; rw [he] at hq; cases hq
      · exact ih _ h

/-! ## Facts about the template -/

theorem isInfix_append_left {n a : Str} (b : Str) (h : n <:+: a) : n <:+: a ++ b :=
  h.trans (List.prefix_append a b).isInfix

theorem isInfix_append_right {n b : Str} (a : Str) (h : n <:+: b) : n <:+: a ++ b :=
  h.trans (List.suffix_append a b).isInfix

theorem flatMap_isInfix_of_mem {α : Type} {f : α → Str} {x : α} {xs : List α} (h : x ∈ xs) :
    f x <:+: xs.flatMap f := by
  obtain ⟨l1, l2, rfl⟩ := List.append_of_mem h
  exact ⟨l1.flatMap f, l2.flatMap f, by simp⟩

/-- The struct fields are part of the rendered text. -/
theorem tmplExecute_fields (p : params) : p.Methods.flatMap tmplField <:+: tmplExecute p := by
  unfold tmplExecute
  dsimp only
  iterate 24 apply isInfix_append_left
  exact (List.suffix_append _ _).isInfix

/-- The forwarding methods are part of the rendered text. -/
theorem tmplExecute_forwards (p : params) :
    p.Methods.flatMap (tmplForward (printValue p.ServiceDescriptorProto.Name))
      <:+: tmplExecute p := by
  unfold tmplExecute
  dsimp only
  iterate 22 apply isInfix_append_left
  exact (List.suffix_append _ _).isInfix

/-- The head of the struct declaration is part of the rendered text. -/
theorem tmplExecute_struct (p : params) :
    ("type ".toList ++ printValue p.ServiceDescriptorProto.Name ++ "Assembly struct".toList)
      <:+: tmplExecute p := by
  unfold tmplExecute
  dsimp only
  iterate 25 apply isInfix_append_left
  simp only [List.append_assoc]
  iterate 10 apply isInfix_append_right
  exact ⟨".\n// Its members are functions which implement the defined rpc endpoints.\n".toList,
    " \x7b\n\t".toList, by simp only [List.append_assoc]; rfl⟩

/-- The callback field of a unary method. -/
theorem tmplField_unary (m : method) (hc : m.MethodDescriptorProto.GetClientStreaming = false)
    (hs : m.MethodDescriptorProto.GetServerStreaming = false) :
    (m.Name ++ "Method func(ctx context.Context, input *".toList ++ m.TrimmedInput ++
      ") (*".toList ++ m.TrimmedOutput ++ ", error)".toList) <:+: tmplField m := by
  unfold tmplField
  rw [hc, hs]
  simp only [Bool.false_eq_true, if_false, List.append_assoc]
  iterate 3 apply isInfix_append_right
  exact ⟨[], "\n\t\t\t".toList ++ ("\n\t\t".toList ++ "\n\t".toList),
    by simp only [List.append_assoc, List.nil_append]; rfl⟩

/-- The forwarding method of a unary method. -/
theorem tmplForward_unary (typ : Str) (m : method)
    (hc : m.MethodDescriptorProto.GetClientStreaming = false)
    (hs : m.MethodDescriptorProto.GetServerStreaming = false) :
    ("func (t *".toList ++ typ ++ "Assembly) ".toList ++ m.Name ++
      "(ctx context.Context, input *".toList ++ m.TrimmedInput ++ ") (*".toList ++
      m.TrimmedOutput ++ ", error) \x7b\n\t\t\t\treturn t.".toList ++ m.Name ++
      "Method(ctx, input)\n\t\t\t\x7d".toList) <:+: tmplForward typ m := by
  unfold tmplForward
  rw [hc, hs]
  simp only [Bool.false_eq_true, if_false, List.append_assoc]
  iterate 7 apply isInfix_append_right
  exact ⟨".\n\t\t\t".toList, "\n\t\t".toList ++ ("\n\t".toList ++ "\n".toList),
    by simp only [List.append_assoc]; rfl⟩

/-- The default callbacks are part of the rendered text. -/
theorem tmplExecute_defaults (p : params) : p.Methods.flatMap tmplDefault <:+: tmplExecute p := by
  unfold tmplExecute
  dsimp only
  iterate 1 apply isInfix_append_left
  exact (List.suffix_append _ _).isInfix

/-- The callback field of a server-streaming method. -/
theorem tmplField_server (m : method) (hc : m.MethodDescriptorProto.GetClientStreaming = false)
    (hs : m.MethodDescriptorProto.GetServerStreaming = true) :
    (m.Name ++ "Method func(input *".toList ++ m.TrimmedInput ++ ", stream ".toList ++
      m.StreamName ++ ") error".toList) <:+: tmplField m := by
  unfold tmplField
  rw [hc, hs]
  simp only [Bool.false_eq_true, if_false, if_true, List.append_assoc]
  iterate 3 apply isInfix_append_right
  exact ⟨[], "\n\n\t\t\t".toList ++ ("\n\t\t".toList ++ "\n\t".toList),
    by simp only [List.append_assoc, List.nil_append]; rfl⟩

/-- The forwarding method of a server-streaming method. -/
theorem tmplForward_server (typ : Str) (m : method)
    (hc : m.MethodDescriptorProto.GetClientStreaming = false)
    (hs : m.MethodDescriptorProto.GetServerStreaming = true) :
    ("func (t *".toList ++ typ ++ "Assembly) ".toList ++ m.Name ++ "(input *".toList ++
      m.TrimmedInput ++ ", stream ".toList ++ m.StreamName ++
      ") error \x7b\n\t\t\t\treturn t.".toList ++ m.Name ++
      "Method(input, stream)\n\t\t\t\x7d".toList) <:+: tmplForward typ m := by
  unfold tmplForward
  rw [hc, hs]
  simp only [Bool.false_eq_true, if_false, if_true, List.append_assoc]
  iterate 7 apply isInfix_append_right
  exact ⟨".\n\t\t\t".toList, "\n\t\t".toList ++ ("\n\t".toList ++ "\n".toList),
    by simp only [List.append_assoc]; rfl⟩

/-- The callback field of a client-streaming or bidirectional method. -/
theorem tmplField_client (m : method) (hc : m.MethodDescriptorProto.GetClientStreaming = true) :
    (m.Name ++ "Method func(stream ".toList ++ m.StreamName ++ ") error".toList)
      <:+: tmplField m := by
  unfold tmplField
  rw [hc]
  cases m.MethodDescriptorProto.GetServerStreaming
  · simp only [Bool.false_eq_true, if_false, if_true, List.append_assoc]
    iterate 2 apply isInfix_append_right
    exact ⟨"\t\n\t\t\t\t ".toList, " \n\t\t\t".toList ++ ("\n\t\t".toList ++ "\n\t".toList),
      by simp only [List.append_assoc]; rfl⟩
  · simp only [if_true, List.append_assoc]
    iterate 3 apply isInfix_append_right
    exact ⟨[], " \n\t\t\t".toList ++ ("\n\t\t".toList ++ "\n\t".toList),
      by simp only [List.append_assoc, List.nil_append]; rfl⟩

/-- The forwarding method of a client-streaming or bidirectional method. -/
theorem tmplForward_client (typ : Str) (m : method)
    (hc : m.MethodDescriptorProto.GetClientStreaming = true) :
    ("func (t *".toList ++ typ ++ "Assembly) ".toList ++ m.Name ++ "(stream ".toList ++
      m.StreamName ++ ") error \x7b\n\t\t\t\treturn t.".toList ++ m.Name ++
      "Method(stream)\n\t\t\t\x7d".toList) <:+: tmplForward typ m := by
  unfold tmplForward
  rw [hc]
  cases m.MethodDescriptorProto.GetServerStreaming
  · simp only [Bool.false_eq_true, if_false, if_true, List.append_assoc]
    iterate 7 apply isInfix_append_right
    exact ⟨".\n\t\t\t".toList, "\n\t\t".toList ++ ("\n\t".toList ++ "\n".toList),
      by simp only [List.append_assoc]; rfl⟩
  · simp only [if_true, List.append_assoc]
    iterate 7 apply isInfix_append_right
    exact ⟨".\n\t\t\t".toList, "\n\t\t".toList ++ ("\n\t".toList ++ "\n".toList),
      by simp only [List.append_assoc]; rfl⟩

theorem isSuffix_append_right {n b : Str} (a : Str) (h : n <:+ b) : n <:+ a ++ b :=
  h.trans (List.suffix_append a b)

/-- The rendered text ends with the constructor: its head, the allocation, the
default callbacks of the methods in order, and `return t`. -/
theorem tmplExecute_constructor (p : params) :
    ("func New".toList ++ printValue p.ServiceDescriptorProto.Name ++ "Assembly() *".toList ++
      printValue p.ServiceDescriptorProto.Name ++ "Assembly \x7b\n\tvar t = new(".toList ++
      printValue p.ServiceDescriptorProto.Name ++ "Assembly)\n\t".toList ++
      p.Methods.flatMap tmplDefault ++ "\n\treturn t\n\x7d\n".toList) <:+ tmplExecute p := by
  unfold tmplExecute
  dsimp only
  simp only [List.append_assoc]
  iterate 27 apply isSuffix_append_right
  exact ⟨" with unimplemented method stubs.\n// NOTE: you should provide your own functions which implement the underlying methods.\n".toList,
    rfl⟩

/-- The default callback of a method is an assignment of one of the four
shapes. -/
theorem tmplDefault_assignment (m : method) :
    ∃ sig ret, (sig, ret) ∈ defaultShapes m ∧
      defaultAssignment m.Name sig ret <:+: tmplDefault m := by
  unfold tmplDefault
  cases hc : m.MethodDescriptorProto.GetClientStreaming <;>
    cases hs : m.MethodDescriptorProto.GetServerStreaming
  · refine ⟨_, _, List.mem_cons_of_mem _ (List.mem_cons_of_mem _
      (List.mem_cons_of_mem _ (List.mem_cons_self _ _))), ?_⟩
    simp only [Bool.false_eq_true, if_false, List.append_assoc]
    iterate 2 apply isInfix_append_right
    exact ⟨"\n\t\t\t\t".toList, "\n\t\t\t".toList ++ ("\n\t\t".toList ++ "\n\t".toList),
      by simp only [defaultAssignment, List.append_assoc]; rfl⟩
  · refine ⟨_, _, List.mem_cons_of_mem _ (List.mem_cons_of_mem _ (List.mem_cons_self _ _)), ?_⟩
    simp only [Bool.false_eq_true, if_false, if_true, List.append_assoc]
    iterate 2 apply isInfix_append_right
    exact ⟨"\n\t\t\t\t".toList, "\n\n\t\t\t".toList ++ ("\n\t\t".toList ++ "\n\t".toList),
      by simp only [defaultAssignment, List.append_assoc]; rfl⟩
  · refine ⟨_, _, List.mem_cons_of_mem _ (List.mem_cons_self _ _), ?_⟩
    simp only [Bool.false_eq_true, if_false, if_true, List.append_assoc]
    iterate 2 apply isInfix_append_right
    exact ⟨"\t\n\t\t\t\t ".toList, "\n\t\t\t".toList ++ ("\n\t\t".toList ++ "\n\t".toList),
      by simp only [defaultAssignment, List.append_assoc]; rfl⟩
  · refine ⟨_, _, List.mem_cons_self _ _, ?_⟩
    simp only [if_true, List.append_assoc]
    iterate 2 apply isInfix_append_right
    exact ⟨"\n\t\t\t\t".toList, "\n\t\t\t".toList ++ ("\n\t\t".toList ++ "\n\t".toList),
      by simp only [defaultAssignment, List.append_assoc]; rfl⟩

/-! ## The claims -/

/-- C1, the code at the failing input: for the file `a/b.proto` with `go_package`
`github.com/org/pkg;mypkg`, `getGoPackage` has already cut the option at the
semicolon, so `goPackageOption` returns the package name `pkg` (what follows
the last slash of the import path) and `goPackageName` returns `pkg`, not
`mypkg`. -/
theorem goPackageName_semicolon_name_dropped :
    getGoPackage (mkFile "a/b.proto" none "github.com/org/pkg;mypkg")
      = .ok "github.com/org/pkg".toList ∧
    goPackageOption (mkFile "a/b.proto" none "github.com/org/pkg;mypkg")
      = .ok ("github.com/org/pkg".toList, "pkg".toList, true) ∧
    goPackageName (mkFile "a/b.proto" none "github.com/org/pkg;mypkg")
      = .ok "pkg".toList ∧
    goPackageName (mkFile "a/b.proto" none "github.com/org/pkg;mypkg")
      ≠ .ok "mypkg".toList := by
  decide

/-- C4: when the `go_package` option is `a ++ "/" ++ b` with no slash in `b`
(so `b` is what follows its last slash) and holds no semicolon,
`goPackageOption` returns `(option, b, true)` and `goPackageName` returns `b`,
whatever the package clause and the name of the file are. -/
theorem goPackageName_after_last_slash (d : FileDescriptorProto) (a b : Str)
    (hd : d.GetGoPackage = a ++ '/' :: b) (hb : '/' ∉ b) (hsc : ';' ∉ d.GetGoPackage) :
    goPackageOption d = .ok (d.GetGoPackage, b, true) ∧ goPackageName d = .ok b := by
  have hg : getGoPackage d = .ok (a ++ '/' :: b) := by
    rw [getGoPackage_of_not_mem hsc, hd]
  have ho : goPackageOption d = .ok (a ++ '/' :: b, b, true) :=
    goPackageOption_slash hg hb (hd ▸ hsc)
  refine ⟨by rw [ho, hd], ?_⟩
  simp [goPackageName, ho]

/-- C4, at `go_package` `github.com/org/pkg` on a file that also has a package
clause. -/
theorem goPackageName_after_last_slash_witness :
    goPackageOption (mkFile "a/b.proto" "clause" "github.com/org/pkg")
      = .ok ("github.com/org/pkg".toList, "pkg".toList, true) ∧
    goPackageName (mkFile "a/b.proto" "clause" "github.com/org/pkg")
      = .ok "pkg".toList :=
  goPackageName_after_last_slash (mkFile "a/b.proto" "clause" "github.com/org/pkg")
    "github.com/org".toList "pkg".toList (by decide) (by decide) (by decide)

/-- C7: `goPackageOption` returns `("", "", false)` when the `go_package`
option is absent (no options, or options without `go_package`) or empty, and
`("", s, true)` when it is a non-empty `s` with neither slash nor semicolon;
in that case `goPackageName` returns `s`, whatever the package clause is. -/
theorem goPackageOption_simple_name (d : FileDescriptorProto) (s : Str) :
    ((d.Options = none ∨ d.Options = some ⟨none⟩ ∨ d.Options = some ⟨some []⟩) →
      goPackageOption d = .ok ([], [], false)) ∧
    (d.GetGoPackage = s → s ≠ [] → '/' ∉ s → ';' ∉ s →
      goPackageOption d = .ok ([], s, true) ∧ goPackageName d = .ok s) := by
  constructor
  · intro h
    have hnil : d.GetGoPackage = [] := by
      rcases h with h | h | h <;> simp [FileDescriptorProto.GetGoPackage, h]
    apply goPackageOption_nil
    rw [getGoPackage_of_not_mem (by simp [hnil]), hnil]
  · intro hd hne hs hsc
    have hg : getGoPackage d = .ok s := by
      rw [getGoPackage_of_not_mem (hd ▸ hsc), hd]
    have ho := goPackageOption_no_slash hg hne hs
    exact ⟨ho, by simp [goPackageName, ho]⟩

/-- C7, at a file without options and at a file with package clause `clause`
and `go_package` `mypkg`. -/
theorem goPackageOption_simple_name_witness :
    goPackageOption ⟨some "a/b.proto".toList, some "clause".toList, none, []⟩
      = .ok ([], [], false) ∧
    goPackageOption (mkFile "a/b.proto" "clause" "mypkg") = .ok ([], "mypkg".toList, true) ∧
    goPackageName (mkFile "a/b.proto" "clause" "mypkg") = .ok "mypkg".toList :=
  ⟨(goPackageOption_simple_name ⟨some "a/b.proto".toList, some "clause".toList, none, []⟩
      []).1 (Or.inl rfl),
   (goPackageOption_simple_name (mkFile "a/b.proto" "clause" "mypkg") "mypkg".toList).2
      (by decide) (by decide) (by decide) (by decide)⟩

/-- C8: `getGoPackage`, `goPackageOption` and `goPackageName` abort exactly
when the `go_package` option holds more than one semicolon, and all three
return a value when it holds at most one. -/
theorem getGoPackage_aborts_iff (d : FileDescriptorProto) :
    ((∃ e, getGoPackage d = .error e) ↔ 2 ≤ d.GetGoPackage.count ';') ∧
    ((∃ e, goPackageOption d = .error e) ↔ 2 ≤ d.GetGoPackage.count ';') ∧
    ((∃ e, goPackageName d = .error e) ↔ 2 ≤ d.GetGoPackage.count ';') ∧
    (d.GetGoPackage.count ';' ≤ 1 →
      (∃ v, getGoPackage d = .ok v) ∧ (∃ v, goPackageOption d = .ok v) ∧
        (∃ v, goPackageName d = .ok v)) := by
  by_cases h : 2 ≤ d.GetGoPackage.count ';'
  · have hg := getGoPackage_error_of_two h
    have ho := goPackageOption_error hg
    have hn := goPackageName_error ho
    refine ⟨⟨fun _ => h, fun _ => ⟨_, hg⟩⟩, ⟨fun _ => h, fun _ => ⟨_, ho⟩⟩,
      ⟨fun _ => h, fun _ => ⟨_, hn⟩⟩, fun hle => by omega⟩
  · obtain ⟨pkg, hg, -⟩ := getGoPackage_ok_of_le_one (by omega : d.GetGoPackage.count ';' ≤ 1)
    obtain ⟨v, ho⟩ := goPackageOption_ok_of_get hg
    obtain ⟨n, hn⟩ := goPackageName_ok_of_option ho
    refine ⟨⟨?_, fun h2 => absurd h2 h⟩, ⟨?_, fun h2 => absurd h2 h⟩,
      ⟨?_, fun h2 => absurd h2 h⟩, fun _ => ⟨⟨_, hg⟩, ⟨_, ho⟩, ⟨_, hn⟩⟩⟩
    · rintro ⟨e, he⟩; rw [hg] at he; cases he
    · rintro ⟨e, he⟩; rw [ho] at he; cases he
    · rintro ⟨e, he⟩; rw [hn] at he; cases he

/-- C8, at `go_package` `a;b;c` (abort) and `github.com/org/pkg;mypkg` (value). -/
theorem getGoPackage_aborts_iff_witness :
    (∃ e, getGoPackage (mkFile "a/b.proto" none "a;b;c") = .error e) ∧
    (∃ e, goPackageName (mkFile "a/b.proto" none "a;b;c") = .error e) ∧
    (∃ v, goPackageName (mkFile "a/b.proto" none "github.com/org/pkg;mypkg") = .ok v) :=
  ⟨(getGoPackage_aborts_iff (mkFile "a/b.proto" none "a;b;c")).1.mpr (by decide),
   (getGoPackage_aborts_iff (mkFile "a/b.proto" none "a;b;c")).2.2.1.mpr (by decide),
   ((getGoPackage_aborts_iff (mkFile "a/b.proto" none "github.com/org/pkg;mypkg")).2.2.2
      (by decide)).2.2⟩

/-- C5: for a file without a `go_package` option, `goPackageName` returns the
package clause when that is not empty, and otherwise `baseName` of the file
name, which is the last slash-separated element of the name with everything
from its last dot onward removed and so holds no slash. -/
theorem goPackageName_without_option (d : FileDescriptorProto)
    (h : d.Options = none ∨ d.Options = some ⟨none⟩) :
    (d.GetPackage ≠ [] → goPackageName d = .ok d.GetPackage) ∧
    (d.GetPackage = [] →
      goPackageName d = .ok (baseName d.GetName) ∧
      baseName d.GetName = beforeLastDot (lastElement d.GetName) ∧
      '/' ∉ baseName d.GetName) := by
  have hnil : d.GetGoPackage = [] := by
    rcases h with h | h <;> simp [FileDescriptorProto.GetGoPackage, h]
  have hg : getGoPackage d = .ok [] := by
    rw [getGoPackage_of_not_mem (by simp [hnil]), hnil]
  have ho := goPackageOption_nil hg
  constructor
  · intro hp
    simp [goPackageName, ho, hp]
  · intro hp
    refine ⟨by simp [goPackageName, ho, hp], baseName_eq _, ?_⟩
    rw [baseName_eq]
    exact beforeLastDot_no_slash (lastElement_no_slash _)

/-- C5, at the file `a/b.proto` without package clause (result `b`) and at the
same file with the package clause `clause`. -/
theorem goPackageName_without_option_witness :
    goPackageName ⟨some "a/b.proto".toList, none, none, []⟩ = .ok "b".toList ∧
    goPackageName ⟨some "a/b.proto".toList, some "clause".toList, none, []⟩
      = .ok "clause".toList :=
  ⟨((goPackageName_without_option ⟨some "a/b.proto".toList, none, none, []⟩
      (Or.inl rfl)).2 (by decide)).1,
   (goPackageName_without_option ⟨some "a/b.proto".toList, some "clause".toList, none, []⟩
      (Or.inl rfl)).1 (by decide)⟩

/-- C9: `TrimmedInput` returns `r` when the input type is `"." ++ p ++ "." ++ r`
for the package name `p` of the method, and returns the input type unchanged
when that does not start with `"." ++ p ++ "."`; `TrimmedOutput` does the same
on the output type. -/
theorem TrimmedInput_strips_package (m : method) (p r : Str) (hp : m.packageName = p) :
    (m.MethodDescriptorProto.GetInputType = ['.'] ++ p ++ ['.'] ++ r → m.TrimmedInput = r) ∧
    (¬ (['.'] ++ p ++ ['.']) <+: m.MethodDescriptorProto.GetInputType →
      m.TrimmedInput = m.MethodDescriptorProto.GetInputType) ∧
    (m.MethodDescriptorProto.GetOutputType = ['.'] ++ p ++ ['.'] ++ r → m.TrimmedOutput = r) ∧
    (¬ (['.'] ++ p ++ ['.']) <+: m.MethodDescriptorProto.GetOutputType →
      m.TrimmedOutput = m.MethodDescriptorProto.GetOutputType) := by
  subst hp
  refine ⟨?_, ?_, ?_, ?_⟩
  · intro h
    unfold method.TrimmedInput dotted
    rw [h]
    exact stringsTrimPrefix_append _ _
  · intro h
    exact stringsTrimPrefix_of_not_prefix h
  · intro h
    unfold method.TrimmedOutput dotted
    rw [h]
    exact stringsTrimPrefix_append _ _
  · intro h
    exact stringsTrimPrefix_of_not_prefix h

/-- C9, at a method of package `helloworld` with input type
`.helloworld.HelloRequest` and output type `.google.protobuf.Empty`. -/
theorem TrimmedInput_strips_package_witness :
    foreignReply.TrimmedInput = "HelloRequest".toList ∧
    foreignReply.TrimmedOutput = ".google.protobuf.Empty".toList :=
  ⟨(TrimmedInput_strips_package foreignReply "helloworld".toList "HelloRequest".toList rfl).1
      (by decide),
   (TrimmedInput_strips_package foreignReply "helloworld".toList []  rfl).2.2.2 (by decide)⟩

/-- C2 as stated fails: a request whose only file has `go_package` `a;b;c` and
no service is parsed without a call of `goPackageName`, and the run ends
normally with an empty response. -/
theorem run_two_semicolons_no_service :
    twoSemicolonsNoService ∈ [twoSemicolonsNoService] ∧
    2 ≤ twoSemicolonsNoService.GetGoPackage.count ';' ∧
    parseRequest ⟨[twoSemicolonsNoService]⟩ = .ok [] ∧
    run formatAccept ⟨[twoSemicolonsNoService]⟩ = .ok ⟨[]⟩ := by
  decide

/-- C2, amended: when a file of the request has at least one service and a
`go_package` option with more than one semicolon, `generateResponse(parseRequest(req))`
aborts and yields no response, wherever the file sits in the request and
whatever the formatter does.  The abort is the configuration error of a file
of the request with more than one semicolon, unless the run has already
stopped at a file without a name (the panic of `*d.Name`). -/
theorem run_aborts_on_semicolons (format : Str → Except Str Str)
    (req : CodeGeneratorRequest) (f : FileDescriptorProto)
    (hf : f ∈ req.ProtoFile) (hs : f.GetService ≠ [])
    (h2 : 2 ≤ f.GetGoPackage.count ';') :
    ∃ e, run format req = .error e ∧
      ((e = .nilName ∧ ∃ g ∈ req.ProtoFile, g.Name = none) ∨
        (∃ g ∈ req.ProtoFile, 2 ≤ g.GetGoPackage.count ';' ∧
          e = .goPackageSemicolons g.GetGoPackage)) := by
  obtain ⟨e, he, hcl⟩ := parseFiles_error_of_two hs h2 req.ProtoFile [] hf
  refine ⟨e, ?_, hcl⟩
  unfold run parseRequest
  rw [he]

/-- C2 amended, at a request whose second file has the service `Greeter` and
`go_package` `a;b;c`. -/
theorem run_aborts_on_semicolons_witness :
    (∃ e, run formatAccept ⟨[mkFile "x.proto" none none, twoSemicolonsGreeter]⟩ = .error e ∧
      ((e = .nilName ∧
          ∃ g ∈ [mkFile "x.proto" none none, twoSemicolonsGreeter], g.Name = none) ∨
        (∃ g ∈ [mkFile "x.proto" none none, twoSemicolonsGreeter],
          2 ≤ g.GetGoPackage.count ';' ∧ e = .goPackageSemicolons g.GetGoPackage))) ∧
    run formatAccept ⟨[mkFile "x.proto" none none, twoSemicolonsGreeter]⟩
      = .error (.goPackageSemicolons "a;b;c".toList) :=
  ⟨run_aborts_on_semicolons formatAccept
      ⟨[mkFile "x.proto" none none, twoSemicolonsGreeter]⟩
      twoSemicolonsGreeter (by decide) (by decide) (by decide),
   by decide⟩

/-- C6 as stated fails: with `go_package` `x;y;z` the portion before the first
semicolon is `x`, which holds no slash, yet `goFileName` aborts in
`getGoPackage` and returns no name for `a/b.proto`. -/
theorem goFileName_two_semicolons_aborts :
    '/' ∉ ("x;y;z".toList.takeWhile (· ≠ ';')) ∧
    goFileName (mkFile "a/b.proto" none "x;y;z")
      = .error (.goPackageSemicolons "x;y;z".toList) := by
  decide

/-- C6, amended: for a file with a name, whose `go_package` option (the empty
string when absent) holds at most one semicolon and no slash before it,
`goFileName` keeps the directory of the file: it returns the whole name, with a
final `.proto` or `.protodevel` removed and nothing else, followed by
`.assembly.go`. -/
theorem goFileName_without_override (d : FileDescriptorProto) (name : Str)
    (hn : d.Name = some name) (hc : d.GetGoPackage.count ';' ≤ 1)
    (hP : '/' ∉ d.GetGoPackage.takeWhile (· ≠ ';')) :
    goFileName d = .ok (trimProtoExt name ++ ".assembly.go".toList) := by
  have hg := getGoPackage_eq_takeWhile hc
  by_cases hnil : d.GetGoPackage.takeWhile (· ≠ ';') = []
  · rw [hnil] at hg
    rw [goFileName_eq hn (goPackageOption_nil hg)]
    simp
  · rw [goFileName_eq hn (goPackageOption_no_slash hg hnil hP)]
    simp

/-- C6 amended, at `a/b.proto` without options, at `a/b.txt` without options and
at `a/b.proto` with `go_package` `mypkg`. -/
theorem goFileName_without_override_witness :
    goFileName ⟨some "a/b.proto".toList, none, none, []⟩ = .ok "a/b.assembly.go".toList ∧
    goFileName ⟨some "a/b.txt".toList, none, none, []⟩ = .ok "a/b.txt.assembly.go".toList ∧
    goFileName (mkFile "a/b.proto" none "mypkg") = .ok "a/b.assembly.go".toList :=
  ⟨goFileName_without_override ⟨some "a/b.proto".toList, none, none, []⟩ "a/b.proto".toList
      rfl (by decide) (by decide),
   goFileName_without_override ⟨some "a/b.txt".toList, none, none, []⟩ "a/b.txt".toList
      rfl (by decide) (by decide),
   goFileName_without_override (mkFile "a/b.proto" none "mypkg") "a/b.proto".toList
      rfl (by decide) (by decide)⟩

/-- C3 as stated fails: for `a/b.proto` with `go_package` `./pb` the import
path `./pb` holds a slash, and `path.Join` cleans the joined path, so
`goFileName` returns `pb/b.assembly.go` and not `./pb/b.assembly.go`. -/
theorem goFileName_import_path_cleaned :
    (mkFile "a/b.proto" none "./pb").GetGoPackage.count ';' ≤ 1 ∧
    '/' ∈ (mkFile "a/b.proto" none "./pb").GetGoPackage.takeWhile (· ≠ ';') ∧
    goFileName (mkFile "a/b.proto" none "./pb") = .ok "pb/b.assembly.go".toList ∧
    goFileName (mkFile "a/b.proto" none "./pb")
      ≠ .ok ("./pb".toList ++ "/".toList ++ "b.assembly.go".toList) := by
  decide

/-- C3, amended: for a file with a name, whose `go_package` option holds at
most one semicolon and whose portion `P` before the semicolon (the whole option
when there is none) holds a slash, `goFileName` returns `path.Join(P, B)`, that
is `path.Clean` of `P ++ "/" ++ B`, where `B` is the last slash-separated
element of the file name with a final `.proto` or `.protodevel` removed and
`.assembly.go` appended; the directory of the file is discarded.  The result
is `P ++ "/" ++ B` itself when `P` is made of plain elements (none empty, `.`
or `..`) separated by single slashes, with or without a leading slash. -/
theorem goFileName_with_override (d : FileDescriptorProto) (name P : Str)
    (hn : d.Name = some name) (hc : d.GetGoPackage.count ';' ≤ 1)
    (hP : P = d.GetGoPackage.takeWhile (· ≠ ';')) (hs : '/' ∈ P) :
    goFileName d = .ok
      (pathClean (P ++ '/' :: (trimProtoExt (lastElement name) ++ ".assembly.go".toList))) ∧
    ∀ es : List Str, es ≠ [] → (∀ e ∈ es, plainElement e) →
      (P = ['/'].intercalate es ∨ P = '/' :: ['/'].intercalate es) →
      goFileName d = .ok
        (P ++ '/' :: (trimProtoExt (lastElement name) ++ ".assembly.go".toList)) := by
  have hg : getGoPackage d = .ok P := by rw [hP]; exact getGoPackage_eq_takeWhile hc
  have hsc : ';' ∉ P := by rw [hP]; exact takeWhile_ne_not_mem _ _
  have hPne : P ≠ [] := fun h => by rw [h] at hs; cases hs
  obtain ⟨a, b, hab, hb⟩ := exists_last_split hs
  have ho : goPackageOption d = .ok (P, b, true) := by
    have := goPackageOption_slash (hab ▸ hg) hb (hab ▸ hsc)
    rw [this, hab]
  have hB : plainElement (trimProtoExt (lastElement name) ++ ".assembly.go".toList) :=
    plainElement_assembly _ (trimProtoExt_no_slash (lastElement_no_slash name))
  have hmain : goFileName d = .ok
      (pathClean (P ++ '/' :: (trimProtoExt (lastElement name) ++ ".assembly.go".toList))) := by
    rw [goFileName_eq hn ho, if_pos ⟨rfl, hPne⟩, pathSplit_trimmed, pathJoin_pair hPne hB.1]
  refine ⟨hmain, ?_⟩
  intro es hes hplain hform
  rw [hmain]
  congr 1
  cases es with
  | nil => exact absurd rfl hes
  | cons e es =>
    have he := hplain e (by simp)
    have hall : ∀ x ∈ es ++ [trimProtoExt (lastElement name) ++ ".assembly.go".toList],
        plainElement x := by
      intro x hx
      rcases List.mem_append.mp hx with h | h
      · exact hplain x (by simp [h])
      · rw [List.mem_singleton.mp h]; exact hB
    have htail : ∀ B : Str, slashTail es ++ '/' :: B = slashTail (es ++ [B]) := by
      intro B; simp [slashTail]
    rw [intercalate_cons_eq] at hform
    rcases hform with h | h
    · rw [h, List.append_assoc, htail]
      exact pathClean_plain e _ he hall
    · rw [h, List.cons_append, List.append_assoc, htail]
      exact pathClean_plain_rooted e _ he hall

/-- C3 amended, at the file `a/b.proto` with `go_package`
`github.com/org/pkg;mypkg`. -/
theorem goFileName_with_override_witness :
    goFileName (mkFile "a/b.proto" none "github.com/org/pkg;mypkg")
      = .ok "github.com/org/pkg/b.assembly.go".toList :=
  (goFileName_with_override (mkFile "a/b.proto" none "github.com/org/pkg;mypkg")
    "a/b.proto".toList "github.com/org/pkg".toList rfl (by decide) (by decide) (by decide)).2
    ["github.com".toList, "org".toList, "pkg".toList] (by decide) (by decide)
    (Or.inl (by decide))

/-- C10: for every parameter record `p` of a service and every method `m` of
it with both streaming flags false, the text the template writes holds, with `S`
the printed service name, `M` the method name, `I = TrimmedInput` and
`O = TrimmedOutput`: the struct declaration `type <S>Assembly struct`, the
callback field `<M>Method func(ctx context.Context, input *<I>) (*<O>, error)`,
and the forwarding method
`func (t *<S>Assembly) <M>(ctx context.Context, input *<I>) (*<O>, error) {`
with the body `return t.<M>Method(ctx, input)`. -/
theorem tmplExecute_unary (p : params) (m : method) (hm : m ∈ p.Methods)
    (hc : m.MethodDescriptorProto.GetClientStreaming = false)
    (hs : m.MethodDescriptorProto.GetServerStreaming = false) :
    ("type ".toList ++ printValue p.ServiceDescriptorProto.Name ++ "Assembly struct".toList)
      <:+: tmplExecute p ∧
    (m.Name ++ "Method func(ctx context.Context, input *".toList ++ m.TrimmedInput ++
      ") (*".toList ++ m.TrimmedOutput ++ ", error)".toList) <:+: tmplExecute p ∧
    ("func (t *".toList ++ printValue p.ServiceDescriptorProto.Name ++ "Assembly) ".toList ++
      m.Name ++ "(ctx context.Context, input *".toList ++ m.TrimmedInput ++ ") (*".toList ++
      m.TrimmedOutput ++ ", error) \x7b\n\t\t\t\treturn t.".toList ++ m.Name ++
      "Method(ctx, input)\n\t\t\t\x7d".toList) <:+: tmplExecute p :=
  ⟨tmplExecute_struct p,
   ((tmplField_unary m hc hs).trans (flatMap_isInfix_of_mem hm)).trans (tmplExecute_fields p),
   ((tmplForward_unary _ m hc hs).trans (flatMap_isInfix_of_mem hm)).trans
     (tmplExecute_forwards p)⟩

/-- C10, at the service `Greeter` of the package `helloworld` with the unary
method `SayHello(HelloRequest) returns (HelloReply)`. -/
theorem tmplExecute_unary_witness :
    parseService helloFile greeter = .ok greeterParams ∧
    "type GreeterAssembly struct".toList <:+: tmplExecute greeterParams ∧
    "SayHelloMethod func(ctx context.Context, input *HelloRequest) (*HelloReply, error)".toList
      <:+: tmplExecute greeterParams ∧
    "func (t *GreeterAssembly) SayHello(ctx context.Context, input *HelloRequest) (*HelloReply, error) \x7b\n\t\t\t\treturn t.SayHelloMethod(ctx, input)\n\t\t\t\x7d".toList
      <:+: tmplExecute greeterParams :=
  ⟨by decide, tmplExecute_unary greeterParams sayHello (by decide) rfl rfl⟩

/-- C11: for every service and every method of it with `clientStreaming` false
and `serverStreaming` true, the text rendered from the parameter record
`parseRequest` builds for the service holds the callback field
`<M>Method func(input *<I>, stream <S>_<M>Server) error` and the forwarding
method `func (t *<S>Assembly) <M>(input *<I>, stream <S>_<M>Server) error {`
with the body `return t.<M>Method(input, stream)`: both take the stream handle
`<S>_<M>Server` and return only an error.  (`S` is the service name; in the
receiver type the template prints it through `printValue`.) -/
theorem tmplExecute_server_streaming (pf : FileDescriptorProto)
    (svc : ServiceDescriptorProto) (p : params) (m : method)
    (hp : parseService pf svc = .ok p) (hm : m ∈ p.Methods)
    (hc : m.MethodDescriptorProto.GetClientStreaming = false)
    (hs : m.MethodDescriptorProto.GetServerStreaming = true) :
    (m.Name ++ "Method func(input *".toList ++ m.TrimmedInput ++ ", stream ".toList ++
      svc.GetName ++ "_".toList ++ m.Name ++ "Server) error".toList) <:+: tmplExecute p ∧
    ("func (t *".toList ++ printValue svc.Name ++ "Assembly) ".toList ++ m.Name ++
      "(input *".toList ++ m.TrimmedInput ++ ", stream ".toList ++
      svc.GetName ++ "_".toList ++ m.Name ++
      "Server) error \x7b\n\t\t\t\treturn t.".toList ++ m.Name ++
      "Method(input, stream)\n\t\t\t\x7d".toList) <:+: tmplExecute p := by
  obtain ⟨-, hname, hsvc, -⟩ := parseService_method hp hm
  have hSN : m.StreamName = svc.GetName ++ "_".toList ++ m.Name ++ "Server".toList := by
    unfold method.StreamName
    rw [hsvc, ← hname]
    rfl
  have hS : p.ServiceDescriptorProto = svc := (parseService_ok hp).1
  constructor
  · have h1 := ((tmplField_server m hc hs).trans (flatMap_isInfix_of_mem hm)).trans
      (tmplExecute_fields p)
    rw [hSN] at h1
    convert h1 using 1
    simp only [List.append_assoc]
    rfl
  · have h1 := ((tmplForward_server _ m hc hs).trans (flatMap_isInfix_of_mem hm)).trans
      (tmplExecute_forwards p)
    rw [hSN, hS] at h1
    convert h1 using 1
    simp only [List.append_assoc]
    rfl

/-- C11, at the service `Greeter` whose method `SayHello` has `serverStreaming`
true: the stream handle is `Greeter_SayHelloServer`. -/
theorem tmplExecute_server_streaming_witness :
    "SayHelloMethod func(input *HelloRequest, stream Greeter_SayHelloServer) error".toList
      <:+: tmplExecute (greeterParamsWith none (some true)) ∧
    "func (t *GreeterAssembly) SayHello(input *HelloRequest, stream Greeter_SayHelloServer) error \x7b\n\t\t\t\treturn t.SayHelloMethod(input, stream)\n\t\t\t\x7d".toList
      <:+: tmplExecute (greeterParamsWith none (some true)) :=
  tmplExecute_server_streaming (helloFileWith none (some true)) (greeterWith none (some true))
    (greeterParamsWith none (some true))
    { Name := "SayHello".toList
      MethodDescriptorProto := sayHelloWith none (some true)
      serviceName := "Greeter".toList
      packageName := "helloworld".toList }
    (by decide) (by decide) rfl rfl

/-- C12: for every service and every method of it with `clientStreaming` true,
whatever `serverStreaming` is, the text rendered from the parameter record
`parseRequest` builds for the service holds the callback field
`<M>Method func(stream <S>_<M>Server) error` and the forwarding method
`func (t *<S>Assembly) <M>(stream <S>_<M>Server) error {` with the body
`return t.<M>Method(stream)`; the field and the forwarding method stay the
same when the input and output types of the method are replaced by any
others, so neither type takes part in them. -/
theorem tmplExecute_client_streaming (pf : FileDescriptorProto)
    (svc : ServiceDescriptorProto) (p : params) (m : method)
    (hp : parseService pf svc = .ok p) (hm : m ∈ p.Methods)
    (hc : m.MethodDescriptorProto.GetClientStreaming = true) :
    (m.Name ++ "Method func(stream ".toList ++ svc.GetName ++ "_".toList ++ m.Name ++
      "Server) error".toList) <:+: tmplExecute p ∧
    ("func (t *".toList ++ printValue svc.Name ++ "Assembly) ".toList ++ m.Name ++
      "(stream ".toList ++ svc.GetName ++ "_".toList ++ m.Name ++
      "Server) error \x7b\n\t\t\t\treturn t.".toList ++ m.Name ++
      "Method(stream)\n\t\t\t\x7d".toList) <:+: tmplExecute p ∧
    ∀ input output : Option Str,
      tmplField (m.withTypes input output) = tmplField m ∧
      tmplForward (printValue svc.Name) (m.withTypes input output)
        = tmplForward (printValue svc.Name) m := by
  obtain ⟨-, hname, hsvc, -⟩ := parseService_method hp hm
  have hSN : m.StreamName = svc.GetName ++ "_".toList ++ m.Name ++ "Server".toList := by
    unfold method.StreamName
    rw [hsvc, ← hname]
    rfl
  have hS : p.ServiceDescriptorProto = svc := (parseService_ok hp).1
  refine ⟨?_, ?_, ?_⟩
  · have h1 := ((tmplField_client m hc).trans (flatMap_isInfix_of_mem hm)).trans
      (tmplExecute_fields p)
    rw [hSN] at h1
    convert h1 using 1
    simp only [List.append_assoc]
    rfl
  · have h1 := ((tmplForward_client _ m hc).trans (flatMap_isInfix_of_mem hm)).trans
      (tmplExecute_forwards p)
    rw [hSN, hS] at h1
    convert h1 using 1
    simp only [List.append_assoc]
    rfl
  · intro input output
    have hc2 : (m.withTypes input output).MethodDescriptorProto.GetClientStreaming = true := hc
    have hs2 : (m.withTypes input output).MethodDescriptorProto.GetServerStreaming
        = m.MethodDescriptorProto.GetServerStreaming := rfl
    have hn2 : (m.withTypes input output).Name = m.Name := rfl
    have hsn2 : (m.withTypes input output).StreamName = m.StreamName := rfl
    constructor
    · unfold tmplField
      rw [hc2, hs2, hn2, hsn2, hc]
      simp only [if_true]
    · unfold tmplForward
      rw [hc2, hs2, hn2, hsn2, hc]
      simp only [if_true]

/-- C12, at the service `Greeter` whose method `SayHello` is bidirectional, and
at the same service with `SayHello` client-streaming only. -/
theorem tmplExecute_client_streaming_witness :
    "SayHelloMethod func(stream Greeter_SayHelloServer) error".toList
      <:+: tmplExecute (greeterParamsWith (some true) (some true)) ∧
    "func (t *GreeterAssembly) SayHello(stream Greeter_SayHelloServer) error \x7b\n\t\t\t\treturn t.SayHelloMethod(stream)\n\t\t\t\x7d".toList
      <:+: tmplExecute (greeterParamsWith (some true) (some true)) ∧
    "SayHelloMethod func(stream Greeter_SayHelloServer) error".toList
      <:+: tmplExecute (greeterParamsWith (some true) none) :=
  ⟨(tmplExecute_client_streaming (helloFileWith (some true) (some true))
      (greeterWith (some true) (some true)) (greeterParamsWith (some true) (some true))
      { Name := "SayHello".toList
        MethodDescriptorProto := sayHelloWith (some true) (some true)
        serviceName := "Greeter".toList
        packageName := "helloworld".toList }
      (by decide) (by decide) rfl).1,
   (tmplExecute_client_streaming (helloFileWith (some true) (some true))
      (greeterWith (some true) (some true)) (greeterParamsWith (some true) (some true))
      { Name := "SayHello".toList
        MethodDescriptorProto := sayHelloWith (some true) (some true)
        serviceName := "Greeter".toList
        packageName := "helloworld".toList }
      (by decide) (by decide) rfl).2.1,
   (tmplExecute_client_streaming (helloFileWith (some true) none)
      (greeterWith (some true) none) (greeterParamsWith (some true) none)
      { Name := "SayHello".toList
        MethodDescriptorProto := sayHelloWith (some true) none
        serviceName := "Greeter".toList
        packageName := "helloworld".toList }
      (by decide) (by decide) rfl).1⟩

/-- C13: for every parameter record `p` of a service and every method `m` of
it, whatever its streaming flags, the rendered text holds the constructor head
`func New<S>Assembly() *<S>Assembly {` and ends with the constructor, whose
body is the allocation, the default callbacks of the methods and `return t`;
the default callback of `m` is in it and is an assignment `t.<M>Method = func(`
of one of the four shapes whose body returns
`status.Errorf(codes.Unimplemented, "<M> has not been implemented")`. -/
theorem tmplExecute_constructor_defaults (p : params) (m : method) (hm : m ∈ p.Methods) :
    ("func New".toList ++ printValue p.ServiceDescriptorProto.Name ++ "Assembly() *".toList ++
      printValue p.ServiceDescriptorProto.Name ++ "Assembly \x7b".toList) <:+: tmplExecute p ∧
    ("func New".toList ++ printValue p.ServiceDescriptorProto.Name ++ "Assembly() *".toList ++
      printValue p.ServiceDescriptorProto.Name ++ "Assembly \x7b\n\tvar t = new(".toList ++
      printValue p.ServiceDescriptorProto.Name ++ "Assembly)\n\t".toList ++
      p.Methods.flatMap tmplDefault ++ "\n\treturn t\n\x7d\n".toList) <:+ tmplExecute p ∧
    tmplDefault m <:+: p.Methods.flatMap tmplDefault ∧
    ∃ sig ret, (sig, ret) ∈ defaultShapes m ∧
      defaultAssignment m.Name sig ret <:+: tmplDefault m := by
  refine ⟨?_, tmplExecute_constructor p, flatMap_isInfix_of_mem hm, tmplDefault_assignment m⟩
  refine List.IsInfix.trans ?_ (tmplExecute_constructor p).isInfix
  refine List.IsPrefix.isInfix ⟨"\n\tvar t = new(".toList ++
    printValue p.ServiceDescriptorProto.Name ++ "Assembly)\n\t".toList ++
    p.Methods.flatMap tmplDefault ++ "\n\treturn t\n\x7d\n".toList, ?_⟩
  simp only [List.append_assoc]
  rfl

/-- C13, at the service `Greeter` with the unary method `SayHello`. -/
theorem tmplExecute_constructor_defaults_witness :
    "func NewGreeterAssembly() *GreeterAssembly \x7b".toList <:+: tmplExecute greeterParams ∧
    "t.SayHelloMethod = func(ctx context.Context, input *HelloRequest) (*HelloReply, error) \x7b\n\t\t\t\t\treturn nil, status.Errorf(codes.Unimplemented, \"SayHello has not been implemented\")\n\t\t\t\t\x7d".toList
      <:+: tmplDefault sayHello :=
  ⟨(tmplExecute_constructor_defaults greeterParams sayHello (by decide)).1, by decide⟩

/-- C14: every method record `m` of every parameter record `p` that
`parseRequest` returns was built from a service of a file of the request and a
method descriptor of that service, and `StreamName` returns the name of the
service, `_`, the name of the method descriptor and `Server`. -/
theorem StreamName_of_parseRequest (req : CodeGeneratorRequest) (ps : List params)
    (p : params) (m : method) (h : parseRequest req = .ok ps) (hp : p ∈ ps)
    (hm : m ∈ p.Methods) :
    (∃ pf ∈ req.ProtoFile, p.ServiceDescriptorProto ∈ pf.GetService) ∧
    m.MethodDescriptorProto ∈ p.ServiceDescriptorProto.GetMethod ∧
    m.StreamName = p.ServiceDescriptorProto.GetName ++ "_".toList ++
      m.MethodDescriptorProto.GetName ++ "Server".toList := by
  obtain ⟨hps, -⟩ := parseFiles_ok_inv req.ProtoFile [] ps h
  rw [hps, List.nil_append] at hp
  obtain ⟨pf, hpf, hpin⟩ := List.mem_flatMap.mp hp
  obtain ⟨n, f, svc, hsvc, rfl, -, -⟩ := mem_fileParams hpin
  obtain ⟨mtd, hmtd, rfl⟩ := List.mem_map.mp hm
  exact ⟨⟨pf, hpf, hsvc⟩, hmtd, rfl⟩

/-- C14, at the method `SayHello` of the service `Greeter`. -/
theorem StreamName_of_parseRequest_witness :
    sayHello.StreamName = "Greeter_SayHelloServer".toList :=
  (StreamName_of_parseRequest helloRequest [greeterParams] greeterParams sayHello
    (by decide) (by decide) (by decide)).2.2

/-- C15: when `generateResponse(parseRequest(req))` returns a response, the
response has one entry per service, in the order of the files and of the
services within each file: its length is the sum of the numbers of services,
and the names of its entries are the results of `goFileName` on the file of each
service (nothing for a file without services).  The run does return a response
when the names of every file with services resolve and the formatter accepts
every rendered text. -/
theorem run_one_entry_per_service (format : Str → Except Str Str)
    (req : CodeGeneratorRequest) :
    (∀ resp, run format req = .ok resp →
      resp.File.length = (req.ProtoFile.map fun pf => pf.GetService.length).sum ∧
      resp.File.map (fun e => (Except.ok e.Name : Except Fatal Str))
        = req.ProtoFile.flatMap fun pf => pf.GetService.map fun _ => goFileName pf) ∧
    ((∀ pf ∈ req.ProtoFile, pf.GetService ≠ [] →
        (∃ n, goPackageName pf = .ok n) ∧ ∃ f, goFileName pf = .ok f) →
      (∀ pf ∈ req.ProtoFile, ∀ p ∈ fileParams pf, ∃ t, format (tmplExecute p) = .ok t) →
      ∃ resp, run format req = .ok resp) := by
  constructor
  · intro resp h
    unfold run at h
    cases hp : parseRequest req with
    | error e => rw [hp] at h; cases h
    | ok ps =>
      rw [hp] at h
      obtain ⟨hps, hres⟩ := parseFiles_ok_inv req.ProtoFile [] ps hp
      rw [List.nil_append] at hps
      have hnames := generateLoop_ok_names format ps _ resp h
      simp only [List.map_nil, List.nil_append] at hnames
      have hfiles : ∀ files : List FileDescriptorProto,
          (∀ pf ∈ files, pf.GetService ≠ [] →
            ∃ n f, goPackageName pf = .ok n ∧ goFileName pf = .ok f) →
          (files.flatMap fileParams).map (fun p => (Except.ok p.GoFileName : Except Fatal Str))
              = files.flatMap (fun pf => pf.GetService.map fun _ => goFileName pf) ∧
            (files.flatMap fileParams).length
              = (files.map fun pf => pf.GetService.length).sum := by
        intro files
        induction files with
        | nil => intro _; exact ⟨rfl, rfl⟩
        | cons pf rest ih =>
          intro hr
          obtain ⟨h1, h2⟩ := fileParams_names (hr pf (by simp))
          obtain ⟨h3, h4⟩ := ih (fun g hg => hr g (List.mem_cons_of_mem _ hg))
          constructor
          · simp only [List.flatMap_cons, List.map_append, h1, h3]
          · simp only [List.flatMap_cons, List.length_append, List.map_cons, List.sum_cons,
              h2, h4]
      obtain ⟨hn, hl⟩ := hfiles req.ProtoFile hres
      constructor
      · have := congrArg List.length hnames
        simp only [List.length_map] at this
        rw [this, hps, hl]
      · have : resp.File.map (fun e => (Except.ok e.Name : Except Fatal Str))
            = (resp.File.map fun e => e.Name).map Except.ok := by
          rw [List.map_map]; rfl
        rw [this, hnames, List.map_map, hps]
        exact hn
  · intro hres hfmt
    have hp := parseFiles_ok_of req.ProtoFile [] hres
    rw [List.nil_append] at hp
    unfold run parseRequest
    rw [hp]
    exact generateLoop_ok_of format _ _ (fun p hpin => by
      obtain ⟨pf, hpf, hin⟩ := List.mem_flatMap.mp hpin
      exact hfmt pf hpf p hin)

/-- C15, at a request with a file without services followed by the file
`a/b.proto` with the service `Greeter`: one entry, named `a/b.assembly.go`. -/
theorem run_one_entry_per_service_witness :
    run formatAccept helloRequest = .ok helloResponse ∧
    helloResponse.File.length = 1 ∧
    helloResponse.File.map (fun e => (Except.ok e.Name : Except Fatal Str))
      = [.ok "a/b.assembly.go".toList] :=
  ⟨rfl, (run_one_entry_per_service formatAccept helloRequest).1 helloResponse rfl⟩

/-- C16: for a file `pf` of the request whose names resolve to `n` and `f`, the
inner loop of `parseRequest` returns and appends one parameter record per
service of `pf`, each with `GoPackageName = n` and `GoFileName = f`; these
records stand in the result of `parseRequest` between the records of the files
before and after `pf`, and the response entries generated for them, as many as
`pf` has services, all have the name `f`. -/
theorem parseRequest_same_names (format : Str → Except Str Str)
    (req : CodeGeneratorRequest) (pre post : List FileDescriptorProto)
    (pf : FileDescriptorProto) (n f : Str) (hreq : req.ProtoFile = pre ++ pf :: post)
    (hn : goPackageName pf = .ok n) (hf : goFileName pf = .ok f) :
    (∀ ps0, parseServices pf pf.GetService ps0 = .ok (ps0 ++ fileParams pf)) ∧
    (fileParams pf).length = pf.GetService.length ∧
    (∀ p ∈ fileParams pf, p.GoPackageName = n ∧ p.GoFileName = f) ∧
    (∀ ps, parseRequest req = .ok ps →
      ps = pre.flatMap fileParams ++ fileParams pf ++ post.flatMap fileParams) ∧
    (∀ resp, run format req = .ok resp →
      ∃ ea eb ec, resp.File = ea ++ eb ++ ec ∧
        ea.length = (pre.flatMap fileParams).length ∧
        eb.length = pf.GetService.length ∧ ∀ e ∈ eb, e.Name = f) := by
  have hfp := fileParams_of_resolves hn hf
  have hlen : (fileParams pf).length = pf.GetService.length := by
    rw [hfp, List.length_map]
  have hall : ∀ p ∈ fileParams pf, p.GoPackageName = n ∧ p.GoFileName = f := by
    intro p hp
    rw [hfp] at hp
    obtain ⟨svc, -, rfl⟩ := List.mem_map.mp hp
    exact ⟨rfl, rfl⟩
  have hparse : ∀ ps, parseRequest req = .ok ps →
      ps = pre.flatMap fileParams ++ fileParams pf ++ post.flatMap fileParams := by
    intro ps h
    obtain ⟨hps, -⟩ := parseFiles_ok_inv req.ProtoFile [] ps h
    rw [hps, hreq]
    simp
  refine ⟨fun ps0 => by rw [hfp]; exact parseServices_ok_of hn hf _ _, hlen, hall, hparse, ?_⟩
  intro resp h
  unfold run at h
  cases hp : parseRequest req with
  | error e => rw [hp] at h; cases h
  | ok ps =>
    rw [hp] at h
    have hnames := generateLoop_ok_names format ps _ resp h
    simp only [List.map_nil, List.nil_append] at hnames
    rw [hparse ps hp, List.map_append, List.map_append] at hnames
    obtain ⟨l1, ec, hsplit, hl1, -⟩ := List.map_eq_append_iff.mp hnames
    obtain ⟨ea, eb, hsplit2, hea, heb⟩ := List.map_eq_append_iff.mp hl1
    refine ⟨ea, eb, ec, by rw [hsplit, hsplit2], ?_, ?_, ?_⟩
    · have := congrArg List.length hea
      simpa only [List.length_map] using this
    · have := congrArg List.length heb
      simp only [List.length_map] at this
      rw [this, hlen]
    · intro e he
      have hin : e.Name ∈ eb.map (fun e => e.Name) := List.mem_map.mpr ⟨e, he, rfl⟩
      rw [heb] at hin
      obtain ⟨p, hp2, hpe⟩ := List.mem_map.mp hin
      rw [← hpe]
      exact (hall p hp2).2

/-- C16, at the file `a/b.proto` with the two services `Greeter` and `Farewell`,
standing in `twoServiceRequest` after a file without services and before the
file `c/d.proto`: `parseRequest` returns two records for it, both with the
package name `helloworld` and the file name `a/b.assembly.go`, and the two
response entries generated for them both have the name `a/b.assembly.go`. -/
theorem parseRequest_same_names_witness :
    parseRequest twoServiceRequest = .ok [greeterParams, farewellParams, otherParams] ∧
    fileParams twoServiceFile = [greeterParams, farewellParams] ∧
    run formatAccept twoServiceRequest = .ok twoServiceResponse ∧
    (fileParams twoServiceFile).length = 2 ∧
    (∀ p ∈ fileParams twoServiceFile,
      p.GoPackageName = "helloworld".toList ∧ p.GoFileName = "a/b.assembly.go".toList) ∧
    ∃ ea eb ec, twoServiceResponse.File = ea ++ eb ++ ec ∧
      ea.length = 0 ∧ eb.length = 2 ∧ ∀ e ∈ eb, e.Name = "a/b.assembly.go".toList :=
  ⟨by decide, by decide, rfl,
   (parseRequest_same_names formatAccept twoServiceRequest [mkFile "x.proto" none none]
      [otherFile] twoServiceFile "helloworld".toList "a/b.assembly.go".toList rfl
      (by decide) (by decide)).2.1,
   (parseRequest_same_names formatAccept twoServiceRequest [mkFile "x.proto" none none]
      [otherFile] twoServiceFile "helloworld".toList "a/b.assembly.go".toList rfl
      (by decide) (by decide)).2.2.1,
   (parseRequest_same_names formatAccept twoServiceRequest [mkFile "x.proto" none none]
      [otherFile] twoServiceFile "helloworld".toList "a/b.assembly.go".toList rfl
      (by decide) (by decide)).2.2.2.2 twoServiceResponse rfl⟩

/-- C17: when the formatter rejects the rendered text of a parameter record of
the list, `generateResponse` aborts and returns no response, wherever the
record stands in the list; when the formatter has accepted the texts of all
the records before it, the abort is the formatting error of that record. -/
theorem generateResponse_aborts_on_rejection (format : Str → Except Str Str)
    (ps : List params) (p : params) (err : Str) (hp : p ∈ ps)
    (he : format (tmplExecute p) = .error err) :
    (∃ e, generateResponse format ps = .error e) ∧
    ∀ pre post, ps = pre ++ p :: post →
      (∀ q ∈ pre, ∃ t, format (tmplExecute q) = .ok t) →
      generateResponse format ps = .error (.goFmt err (tmplExecute p)) := by
  constructor
  · exact generateLoop_error_of_mem format he ps _ hp
  · intro pre post hps hpre
    unfold generateResponse
    rw [hps]
    exact generateLoop_error_at format he post pre _ hpre

/-- C17, at a list of two records where the formatter accepts the text of the
first and rejects the text of the second. -/
theorem generateResponse_aborts_on_rejection_witness :
    formatRejectNoPackage (tmplExecute greeterParams) = .ok (tmplExecute greeterParams) ∧
    generateResponse formatRejectNoPackage [greeterParams, greeterParamsNoPackage]
      = .error (.goFmt "expected 'IDENT'".toList (tmplExecute greeterParamsNoPackage)) :=
  ⟨rfl,
   (generateResponse_aborts_on_rejection formatRejectNoPackage
      [greeterParams, greeterParamsNoPackage] greeterParamsNoPackage
      "expected 'IDENT'".toList (by decide) (by decide)).2 [greeterParams] [] rfl
      (fun q hq => ⟨tmplExecute greeterParams, by rw [List.mem_singleton.mp hq]; rfl⟩)⟩

/-- C18: whenever `goFileName` returns a name, the name ends in `.assembly.go`,
also when it has been moved under an import path by `path.Join`; and
`goFileName` does return a name for every file with a name whose `go_package`
option holds at most one semicolon. -/
theorem goFileName_ends_with_assembly (d : FileDescriptorProto) :
    (∀ f, goFileName d = .ok f → ".assembly.go".toList <:+ f) ∧
    (∀ name, d.Name = some name → d.GetGoPackage.count ';' ≤ 1 →
      ∃ f, goFileName d = .ok f) := by
  constructor
  · intro f h
    cases hn : d.Name with
    | none =>
      unfold goFileName at h
      rw [hn] at h
      cases h
    | some name =>
      cases ho : goPackageOption d with
      | error e =>
        unfold goFileName at h
        rw [hn] at h
        dsimp only at h
        rw [ho] at h
        cases h
      | ok v =>
        obtain ⟨imp, pkg, ok⟩ := v
        rw [goFileName_eq hn ho] at h
        have hf := Except.ok.inj h
        rw [← hf]
        split
        · rename_i hcond
          have hB : plainElement
              (trimProtoExt (lastElement name) ++ ".assembly.go".toList) :=
            plainElement_assembly _ (trimProtoExt_no_slash (lastElement_no_slash name))
          rw [pathSplit_trimmed, pathJoin_pair hcond.2 hB.1]
          exact (List.suffix_append _ _).trans (pathClean_ends _ _ hcond.2 hB)
        · exact List.suffix_append _ _
  · intro name hn hc
    obtain ⟨pkg, hg, -⟩ := getGoPackage_ok_of_le_one hc
    obtain ⟨v, ho⟩ := goPackageOption_ok_of_get hg
    obtain ⟨imp, pkg2, ok⟩ := v
    exact ⟨_, goFileName_eq hn ho⟩

/-- C18, at the file `a/b.proto` with `go_package` `./pb`, whose name is moved
and cleaned to `pb/b.assembly.go`. -/
theorem goFileName_ends_with_assembly_witness :
    goFileName (mkFile "a/b.proto" none "./pb") = .ok "pb/b.assembly.go".toList ∧
    ".assembly.go".toList <:+ "pb/b.assembly.go".toList ∧
    ∃ f, goFileName (mkFile "a/b.proto" none "github.com/org/pkg;mypkg") = .ok f :=
  ⟨by decide,
   (goFileName_ends_with_assembly (mkFile "a/b.proto" none "./pb")).1
      "pb/b.assembly.go".toList (by decide),
   (goFileName_ends_with_assembly (mkFile "a/b.proto" none "github.com/org/pkg;mypkg")).2
      "a/b.proto".toList rfl (by decide)⟩

/-- C19: the text after a semicolon in `go_package` plays no part in name
resolution: for `P`, `N`, `N'` without semicolon, `goPackageOption` returns the
same on the options `P;N`, `P;N'` and `P`.  No component returned by
`goPackageOption` holds a semicolon, and the string `goPackageOption` receives
from `getGoPackage` holds none, so the search for a semicolon in
`goPackageOption` always fails and its last assignment is never reached. -/
theorem goPackageOption_ignores_text_after_semicolon (d1 d2 d3 : FileDescriptorProto)
    (P N N' : Str) (hP : ';' ∉ P) (hN : ';' ∉ N) (hN' : ';' ∉ N')
    (h1 : d1.GetGoPackage = P ++ ';' :: N) (h2 : d2.GetGoPackage = P ++ ';' :: N')
    (h3 : d3.GetGoPackage = P) :
    goPackageOption d1 = goPackageOption d2 ∧ goPackageOption d1 = goPackageOption d3 ∧
    (∀ (d : FileDescriptorProto) (imp pkg : Str) (ok : Bool),
      goPackageOption d = .ok (imp, pkg, ok) → ';' ∉ imp ∧ ';' ∉ pkg) ∧
    (∀ (d : FileDescriptorProto) (pkg : Str),
      getGoPackage d = .ok pkg → indexByte pkg ';' = none) := by
  have g1 : getGoPackage d1 = .ok P := getGoPackage_of_one h1 hP hN
  have g2 : getGoPackage d2 = .ok P := getGoPackage_of_one h2 hP hN'
  have g3 : getGoPackage d3 = .ok P := by
    rw [getGoPackage_of_not_mem (h3 ▸ hP), h3]
  refine ⟨goPackageOption_congr (g1.trans g2.symm), goPackageOption_congr (g1.trans g3.symm),
    fun d imp pkg ok h => goPackageOption_no_semicolon h,
    fun d pkg h => indexByte_eq_none.mpr (getGoPackage_ok_no_semicolon h)⟩

/-- C19, at the options `github.com/org/pkg;mypkg`, `github.com/org/pkg;other`
and `github.com/org/pkg`. -/
theorem goPackageOption_ignores_text_after_semicolon_witness :
    goPackageOption (mkFile "a/b.proto" none "github.com/org/pkg;mypkg")
      = goPackageOption (mkFile "a/b.proto" none "github.com/org/pkg;other") ∧
    goPackageOption (mkFile "a/b.proto" none "github.com/org/pkg;mypkg")
      = goPackageOption (mkFile "a/b.proto" none "github.com/org/pkg") :=
  ⟨(goPackageOption_ignores_text_after_semicolon
      (mkFile "a/b.proto" none "github.com/org/pkg;mypkg")
      (mkFile "a/b.proto" none "github.com/org/pkg;other")
      (mkFile "a/b.proto" none "github.com/org/pkg")
      "github.com/org/pkg".toList "mypkg".toList "other".toList
      (by decide) (by decide) (by decide) (by decide) (by decide) (by decide)).1,
   (goPackageOption_ignores_text_after_semicolon
      (mkFile "a/b.proto" none "github.com/org/pkg;mypkg")
      (mkFile "a/b.proto" none "github.com/org/pkg;other")
      (mkFile "a/b.proto" none "github.com/org/pkg")
      "github.com/org/pkg".toList "mypkg".toList "other".toList
      (by decide) (by decide) (by decide) (by decide) (by decide) (by decide)).2.1⟩

/-- C20: for a method `m` of a file with an empty package clause the prefix
sought is `..`, so an input type `"." ++ T` with `T` not starting with a dot is
returned unchanged by `TrimmedInput`, and the rendered callback field of a
unary `m` is `<M>Method func(ctx context.Context, input *.<T>) (*<O>, error)`;
the same holds for `TrimmedOutput` and an output type `"." ++ T`. -/
theorem TrimmedInput_empty_package (pf : FileDescriptorProto)
    (svc : ServiceDescriptorProto) (p : params) (m : method) (T : Str)
    (hp : parseService pf svc = .ok p) (hpkg : pf.GetPackage = []) (hm : m ∈ p.Methods)
    (hT : T.head? ≠ some '.') :
    dotted m.packageName = "..".toList ∧
    (m.MethodDescriptorProto.GetInputType = '.' :: T →
      m.TrimmedInput = '.' :: T ∧
      (m.MethodDescriptorProto.GetClientStreaming = false →
        m.MethodDescriptorProto.GetServerStreaming = false →
        (m.Name ++ "Method func(ctx context.Context, input *.".toList ++ T ++ ") (*".toList ++
          m.TrimmedOutput ++ ", error)".toList) <:+: tmplExecute p)) ∧
    (m.MethodDescriptorProto.GetOutputType = '.' :: T →
      m.TrimmedOutput = '.' :: T ∧
      (m.MethodDescriptorProto.GetClientStreaming = false →
        m.MethodDescriptorProto.GetServerStreaming = false →
        (m.Name ++ "Method func(ctx context.Context, input *".toList ++ m.TrimmedInput ++
          ") (*.".toList ++ T ++ ", error)".toList) <:+: tmplExecute p)) := by
  obtain ⟨-, -, -, hpk⟩ := parseService_method hp hm
  rw [hpkg] at hpk
  have hdot : dotted m.packageName = "..".toList := by rw [hpk]; rfl
  have hnp : ¬ (dotted m.packageName) <+: '.' :: T := by
    rw [hdot]
    rintro ⟨r, hr⟩
    have h2 : T = '.' :: r := by
      have := (List.cons.inj hr).2
      exact this.symm
    rw [h2] at hT
    exact hT rfl
  refine ⟨hdot, ?_, ?_⟩
  · intro hin
    have htrim : m.TrimmedInput = '.' :: T := by
      unfold method.TrimmedInput
      rw [hin]
      exact stringsTrimPrefix_of_not_prefix hnp
    refine ⟨htrim, fun hc hs => ?_⟩
    have h1 := ((tmplField_unary m hc hs).trans (flatMap_isInfix_of_mem hm)).trans
      (tmplExecute_fields p)
    rw [htrim] at h1
    convert h1 using 1
    simp only [List.append_assoc]
    rfl
  · intro hout
    have htrim : m.TrimmedOutput = '.' :: T := by
      unfold method.TrimmedOutput
      rw [hout]
      exact stringsTrimPrefix_of_not_prefix hnp
    refine ⟨htrim, fun hc hs => ?_⟩
    have h1 := ((tmplField_unary m hc hs).trans (flatMap_isInfix_of_mem hm)).trans
      (tmplExecute_fields p)
    rw [htrim] at h1
    convert h1 using 1
    simp only [List.append_assoc]
    rfl

/-- C20, at the file `a/b.proto` without package clause, with the unary method
`SayHello` of input type `.HelloRequest` and output type `.HelloReply`. -/
theorem TrimmedInput_empty_package_witness :
    parseService bareFile bareGreeter = .ok bareParams ∧
    bareMethod.TrimmedInput = ".HelloRequest".toList ∧
    bareMethod.TrimmedOutput = ".HelloReply".toList ∧
    "SayHelloMethod func(ctx context.Context, input *.HelloRequest) (*.HelloReply, error)".toList
      <:+: tmplExecute bareParams :=
  ⟨by decide,
   ((TrimmedInput_empty_package bareFile bareGreeter bareParams bareMethod
      "HelloRequest".toList (by decide) rfl (by decide) (by decide)).2.1 rfl).1,
   ((TrimmedInput_empty_package bareFile bareGreeter bareParams bareMethod
      "HelloReply".toList (by decide) rfl (by decide) (by decide)).2.2 rfl).1,
   ((TrimmedInput_empty_package bareFile bareGreeter bareParams bareMethod
      "HelloRequest".toList (by decide) rfl (by decide) (by decide)).2.1 rfl).2 rfl rfl⟩

end GrpcFuncs
